import Mathlib

set_option autoImplicit false

/-!
Shallow embedding of the editing core of the kaka editor
(crates/kaka-core: transaction.rs, history.rs, document/mod.rs;
crates/kaka: editor/buffer.rs), together with proofs about the
claims of the specification.

Text is modelled as a list of characters (`ropey::Rope` is char-indexed).
Operations that can panic in Rust (out-of-bounds rope access, integer
underflow, `expect`) are modelled as `Option`-returning functions, with
`none` standing for the panic.
-/

namespace Kaka

abbrev Str := List Char

/-- UTF-8 byte length of a string, as Rust's `str::len` /
`SmartString::len` report it (`Char.utf8Size` is the number of bytes of
the character's UTF-8 encoding). -/
def byteLen (s : Str) : Nat := (s.map Char.utf8Size).sum

/-- `ropey::Rope::insert(char_idx, text)`: splice `s` in at character
index `pos`.  Rust panics when `pos > len_chars`; call sites check this. -/
def ropeInsert (pos : Nat) (s : Str) (t : Str) : Str :=
  t.take pos ++ s ++ t.drop pos

/-- `ropey::Rope::remove(pos..pos+len)`.  Rust panics when
`pos + len > len_chars`; call sites check this. -/
def ropeRemove (pos len : Nat) (t : Str) : Str :=
  t.take pos ++ t.drop (pos + len)

/-- `Change` from transaction.rs. -/
inductive Change where
  | moveForward (n : Nat)
  | insert (s : Str)
  | delete (n : Nat)
deriving DecidableEq

/-- `ChangeSet` from transaction.rs. -/
structure ChangeSet where
  start_pos : Nat
  end_pos : Nat
  changes : List Change
deriving DecidableEq

/-- `ChangeSet::new(pos)`. -/
def ChangeSet.new (pos : Nat) : ChangeSet :=
  { start_pos := pos, end_pos := pos, changes := [] }

/-- Push an `Insert`, merging into a trailing `Insert` node
(`ChangeSet::insert`'s `match self.changes.as_mut_slice()`). -/
def pushIns (changes : List Change) (s : Str) : List Change :=
  match changes.getLast? with
  | some (Change.insert content) => changes.dropLast ++ [Change.insert (content ++ s)]
  | _ => changes ++ [Change.insert s]

/-- Push a `MoveForward`, merging into a trailing `MoveForward`. -/
def pushMove (changes : List Change) (n : Nat) : List Change :=
  match changes.getLast? with
  | some (Change.moveForward prev) => changes.dropLast ++ [Change.moveForward (prev + n)]
  | _ => changes ++ [Change.moveForward n]

/-- Push a `Delete`, merging into a trailing `Delete`. -/
def pushDel (changes : List Change) (n : Nat) : List Change :=
  match changes.getLast? with
  | some (Change.delete prev) => changes.dropLast ++ [Change.delete (prev + n)]
  | _ => changes ++ [Change.delete n]

/-- `ChangeSet::insert`: no-op on the empty string, otherwise merge-push
and advance `end_pos` by the character count; returns that count. -/
def ChangeSet.insert (cs : ChangeSet) (string : Str) : ChangeSet × Nat :=
  let strlen := string.length
  if strlen = 0 then (cs, 0)
  else ({ cs with
            changes := pushIns cs.changes string,
            end_pos := cs.end_pos + strlen }, strlen)

/-- `ChangeSet::move_forward_by`. -/
def ChangeSet.move_forward_by (cs : ChangeSet) (count : Nat) : ChangeSet :=
  { cs with changes := pushMove cs.changes count, end_pos := cs.end_pos + count }

/-- `ChangeSet::delete`: no-op when `len == 0`; does not touch `end_pos`. -/
def ChangeSet.delete (cs : ChangeSet) (len : Nat) : ChangeSet :=
  if len = 0 then cs else { cs with changes := pushDel cs.changes len }

/-- The loop body of `ChangeSet::apply`.  Note that on `Insert` the
source advances the running position by `content.len()` — the UTF-8
*byte* length — even though rope positions are character indices. -/
def applyChanges : List Change → Nat → Str → Option (Nat × Str)
  | [], pos, rope => some (pos, rope)
  | Change.moveForward count :: rest, pos, rope =>
      applyChanges rest (pos + count) rope
  | Change.insert content :: rest, pos, rope =>
      if pos ≤ rope.length then
        applyChanges rest (pos + byteLen content) (ropeInsert pos content rope)
      else none
  | Change.delete len :: rest, pos, rope =>
      if pos + len ≤ rope.length then
        applyChanges rest pos (ropeRemove pos len rope)
      else none

/-- `ChangeSet::apply(offset, rope)`.  The source computes
`(offset + start_pos as isize) as usize`; the cast wraps for negative
sums in Rust, every claim below only exercises non-negative sums where
`Int.toNat` coincides with the cast. -/
def ChangeSet.apply (cs : ChangeSet) (offset : Int) (rope : Str) : Option (Nat × Str) :=
  applyChanges cs.changes (offset + (cs.start_pos : Int)).toNat rope

/-- `ChangeSet::changes_text`. -/
def ChangeSet.changes_text (cs : ChangeSet) : Bool :=
  cs.changes.any fun ch =>
    match ch with
    | Change.insert _ => true
    | Change.delete _ => true
    | Change.moveForward _ => false

/-- The loop of `ChangeSet::undo`: walk the changes in order, building
the inverse changeset through the merging mutators.  The `Delete` branch
reads `original.slice(pos..pos+len)` at the revert's current `end_pos`;
in Rust that slice panics when out of bounds, the model truncates (the
claims only evaluate it in bounds). -/
def undoGo (original : Str) : List Change → ChangeSet → ChangeSet
  | [], revert => revert
  | Change.moveForward count :: rest, revert =>
      undoGo original rest (revert.move_forward_by count)
  | Change.insert content :: rest, revert =>
      undoGo original rest (revert.delete content.length)
  | Change.delete len :: rest, revert =>
      undoGo original rest
        (revert.insert ((original.drop revert.end_pos).take len)).1

/-- `ChangeSet::undo(original)`. -/
def ChangeSet.undo (cs : ChangeSet) (original : Str) : ChangeSet :=
  undoGo original cs.changes
    { start_pos := cs.start_pos, end_pos := cs.start_pos, changes := [] }

/-- `Transaction` from transaction.rs (`repeat` is `NonZeroUsize` in the
source; the model keeps a plain `Nat` and `set_repeat` refuses zero). -/
structure Transaction where
  repeat_count : Nat
  len_before : Nat
  len_after : Nat
  changesets : List ChangeSet
deriving DecidableEq

/-- `Transaction::new(rope, pos)`. -/
def Transaction.new (rope : Str) (pos : Nat) : Transaction :=
  { repeat_count := 1, len_before := rope.length, len_after := rope.length,
    changesets := [ChangeSet.new pos] }

/-- Replace the head (last) changeset, the target of `changeset_head()`.
`none` models the `expect` panic on an empty changeset list. -/
def Transaction.withHead (tx : Transaction) (f : ChangeSet → ChangeSet) :
    Option Transaction :=
  match tx.changesets.getLast? with
  | none => none
  | some head => some { tx with changesets := tx.changesets.dropLast ++ [f head] }

/-- `Transaction::insert`: skips empty strings, otherwise delegates to the
head changeset and bumps `len_after` by the inserted character count. -/
def Transaction.insert (tx : Transaction) (string : Str) : Option Transaction :=
  if string = [] then some tx
  else
    match tx.changesets.getLast? with
    | none => none
    | some head =>
        let r := head.insert string
        some { tx with
                 changesets := tx.changesets.dropLast ++ [r.1],
                 len_after := tx.len_after + r.2 }

/-- `Transaction::insert_char`. -/
def Transaction.insert_char (tx : Transaction) (c : Char) : Option Transaction :=
  tx.insert [c]

/-- `Transaction::move_forward_by`. -/
def Transaction.move_forward_by (tx : Transaction) (count : Nat) : Option Transaction :=
  tx.withHead (fun head => head.move_forward_by count)

/-- `Transaction::move_backward_by`: shifts a still-empty head changeset,
otherwise opens a fresh changeset anchored `count` before the head's
`end_pos`.  `none` models the usize underflow panic. -/
def Transaction.move_backward_by (tx : Transaction) (count : Nat) : Option Transaction :=
  match tx.changesets.getLast? with
  | none => none
  | some head =>
      if head.changes = [] then
        if count ≤ head.start_pos ∧ count ≤ head.end_pos then
          some { tx with
                   changesets := tx.changesets.dropLast ++
                     [{ head with
                          start_pos := head.start_pos - count,
                          end_pos := head.end_pos - count }] }
        else none
      else
        if count ≤ head.end_pos then
          some { tx with
                   changesets := tx.changesets ++ [ChangeSet.new (head.end_pos - count)] }
        else none

/-- `Transaction::move_to`: compare against the head changeset's `end_pos`
and move forward or backward by the difference. -/
def Transaction.move_to (tx : Transaction) (pos : Nat) : Option Transaction :=
  match tx.changesets.getLast? with
  | none => none
  | some head =>
      if head.end_pos < pos then tx.move_forward_by (pos - head.end_pos)
      else if pos < head.end_pos then tx.move_backward_by (head.end_pos - pos)
      else some tx

/-- `Transaction::delete`. -/
def Transaction.delete (tx : Transaction) (len : Nat) : Option Transaction :=
  tx.withHead (fun head => head.delete len)

/-- `Transaction::set_repeat`: `none` models the `expect` panic on zero
(`repeat` is `NonZeroUsize`). -/
def Transaction.set_repeat (tx : Transaction) (r : Nat) : Option Transaction :=
  if r = 0 then none else some { tx with repeat_count := r }

/-- The inner loop of `Transaction::apply_impl`: apply every changeset in
order with the same offset; the running `pos` is overwritten by each
changeset's result. -/
def applyChangesets : List ChangeSet → Int → Nat → Str → Option (Nat × Str)
  | [], _, pos, rope => some (pos, rope)
  | cs :: rest, offset, _, rope =>
      match cs.apply offset rope with
      | none => none
      | some (p, r2) => applyChangesets rest offset p r2

/-- The outer loop of `Transaction::apply_impl`: run `n` passes; the
offset is captured once, after the first pass, as
`pos - changesets[0].start_pos`, and reused unchanged afterwards. -/
def applyPasses (changesets : List ChangeSet) (pos1 : Nat) :
    Nat → Option Int → Nat → Str → Option (Nat × Str)
  | 0, _, pos, rope => some (pos, rope)
  | n + 1, offset, pos, rope =>
      match applyChangesets changesets (offset.getD 0) pos rope with
      | none => none
      | some (p, r2) =>
          applyPasses changesets pos1 n
            (some (offset.getD ((p : Int) - (pos1 : Int)))) p r2

/-- `Transaction::apply_impl`.  `none` on an empty changeset list models
the panic of `self.changesets[0]`. -/
def Transaction.apply_impl (tx : Transaction) (rope : Str) (only_repeats : Bool) :
    Option (Nat × Str) :=
  match tx.changesets.head? with
  | none => none
  | some c0 =>
      applyPasses tx.changesets c0.start_pos
        (tx.repeat_count - (if only_repeats then 1 else 0)) none 0 rope

/-- `Transaction::apply`. -/
def Transaction.apply (tx : Transaction) (rope : Str) : Option (Nat × Str) :=
  tx.apply_impl rope false

/-- `Transaction::apply_repeats`. -/
def Transaction.apply_repeats (tx : Transaction) (rope : Str) : Option (Nat × Str) :=
  tx.apply_impl rope true

/-- `Transaction::undo(original)`: undo every changeset against the
original pre-transaction text and reverse the list. -/
def Transaction.undo (tx : Transaction) (original : Str) : Transaction :=
  { repeat_count := tx.repeat_count,
    len_before := tx.len_after,
    len_after := tx.len_after,
    changesets := (tx.changesets.map (fun c => c.undo original)).reverse }

/-- `Transaction::changes_text`. -/
def Transaction.changes_text (tx : Transaction) : Bool :=
  tx.changesets.any ChangeSet.changes_text

/-- `Commit` from history.rs; the timestamp (a `Duration` since the epoch)
is modelled as a `Nat` supplied by the caller. -/
structure Commit where
  transaction : Transaction
  inversion : Transaction
  timestamp : Nat
deriving DecidableEq

/-- `Commit::with_timestamp`: the inversion is computed once, against the
pre-edit text. -/
def Commit.with_timestamp (text : Str) (tx : Transaction) (ts : Nat) : Commit :=
  { transaction := tx, inversion := tx.undo text, timestamp := ts }

/-- `History` from history.rs. -/
structure History where
  commits : List Commit
  head : Nat
deriving DecidableEq

/-- `History::create_commit`.  The `while self.head < self.commits.len()
{ pop }` loop truncates the commit list to length `head`, which is
exactly `commits.take head`.  `now` stands for `SystemTime::now()`. -/
def History.create_commit (h : History) (now : Nat) (text : Str) (tx : Transaction) :
    History :=
  if tx.changes_text = false then h
  else
    { commits := h.commits.take h.head ++ [Commit.with_timestamp text tx now],
      head := h.head + 1 }

/-- `History::undo`: `&mut self` is modelled by returning the new state
together with the returned value.  `self.commits[index]` panics when out
of range in Rust; that cannot happen while `head ≤ commits.len()`, and
the model conflates it with `none`. -/
def History.undo (h : History) : History × Option Transaction :=
  match h.head with
  | 0 => (h, none)
  | i + 1 => ({ h with head := i }, (h.commits.get? i).map Commit.inversion)

/-- `History::redo`. -/
def History.redo (h : History) : History × Option Transaction :=
  if h.head < h.commits.length then
    ({ h with head := h.head + 1 }, (h.commits.get? h.head).map Commit.transaction)
  else (h, none)

/-- `TransactionLeave` from document/mod.rs. -/
inductive TransactionLeave where
  | keep
  | commit
  | rollback
deriving DecidableEq

/-- `TransactionContext` from document/mod.rs. -/
structure TransactionContext where
  transaction : Transaction
  saved_text : Str
deriving DecidableEq

/-- `FilesystemMetadata` from document/mod.rs. -/
structure FilesystemMetadata where
  path : String
  writable : Bool
deriving DecidableEq

/-- `Document` from document/mod.rs (the id is a plain `Nat`). -/
structure Document where
  id : Nat
  text : Str
  tx_context : Option TransactionContext
  fs_metadata : Option FilesystemMetadata
  history : History
deriving DecidableEq

/-- `Document::with_transaction`.  The callback takes `&mut self` and
`&mut transaction`, modelled as returning the updated document, the
updated transaction and the leave directive.  `none` models the
`assert!(self.tx_context.is_some())` panic.  `now` stands for the commit
timestamp taken inside `History::create_commit`'s `Commit::new`. -/
def Document.with_transaction (doc : Document)
    (callback : Document → Transaction → Document × Transaction × TransactionLeave)
    (now : Nat) : Option Document :=
  match doc.tx_context with
  | none => none
  | some ctx =>
      let doc1 : Document := { doc with tx_context := none }
      let r := callback doc1 ctx.transaction
      match r.2.2 with
      | TransactionLeave.commit =>
          some { r.1 with history := r.1.history.create_commit now ctx.saved_text r.2.1 }
      | TransactionLeave.keep =>
          some { r.1 with
                   tx_context := some { transaction := r.2.1, saved_text := ctx.saved_text } }
      | TransactionLeave.rollback =>
          some { r.1 with text := ctx.saved_text }

/-! Model of the line-oriented rope queries used by editor/buffer.rs,
with `ropey`'s semantics: a line break belongs to the line it ends, the
text has `(number of line breaks) + 1` lines, and the line past a final
line break is empty. -/

/-- Number of line-break characters in the text. -/
def countNl : Str → Nat
  | [] => 0
  | c :: rest => (if c = '\n' then 1 else 0) + countNl rest

/-- `ropey::Rope::len_lines`. -/
def len_lines (t : Str) : Nat := countNl t + 1

/-- `ropey::Rope::char_to_line(i)`: the line containing character `i`
(the number of line breaks strictly before `i`); for `i = len_chars`
this is the last line index. -/
def char_to_line (t : Str) (i : Nat) : Nat := countNl (t.take i)

/-- `ropey::Rope::line_to_char(l)`: the character index where line `l`
starts (for `l = len_lines`, one past the end). -/
def line_to_char : Str → Nat → Nat
  | _, 0 => 0
  | [], _ + 1 => 0
  | c :: rest, l + 1 =>
      if c = '\n' then line_to_char rest l + 1 else line_to_char rest (l + 1) + 1

/-- The chars of a line: everything up to and including the first line
break of the remaining text. -/
def takeLine : Str → Str
  | [] => []
  | c :: rest => if c = '\n' then ['\n'] else c :: takeLine rest

/-- `ropey::Rope::line(l)` (its character content). -/
def lineAt (t : Str) (l : Nat) : Str := takeLine (t.drop (line_to_char t l))

/-- `ropey::Rope::get_char(i)` — an `Option` in the source as well. -/
def get_char (t : Str) (i : Nat) : Option Char := t.get? i

/-- `ModeKind` from editor/mode.rs. -/
inductive ModeKind where
  | normal
  | insert
  | visual
deriving DecidableEq

/-- `Selection` from kaka-core/selection.rs. -/
structure Selection where
  anchor : Nat
  head : Nat
deriving DecidableEq

/-- `Selection::update_head`. -/
def Selection.update_head (s : Selection) (pos : Nat) : Selection :=
  { s with head := pos }

/-- `ModeData` from editor/mode.rs. -/
inductive ModeData where
  | normal
  | insert
  | visual (selection : Selection)
deriving DecidableEq

/-- `ModeData::update`: only a visual selection tracks the position. -/
def ModeData.update (m : ModeData) (pos : Nat) : ModeData :=
  match m with
  | ModeData.visual selection => ModeData.visual (selection.update_head pos)
  | m => m

/-- `UpdateBufPositionParams` from editor/buffer.rs. -/
structure UpdateBufPositionParams where
  update_saved_column : Bool
  line_keep : Bool
  allow_on_newline : Bool
deriving DecidableEq

/-- `Default for UpdateBufPositionParams`. -/
def UpdateBufPositionParams.default : UpdateBufPositionParams :=
  { update_saved_column := true, line_keep := false, allow_on_newline := false }

/-- `UpdateBufPositionParams::inserting_text`. -/
def UpdateBufPositionParams.inserting_text : UpdateBufPositionParams :=
  { update_saved_column := true, line_keep := false, allow_on_newline := true }

/-- Modelled from the spec: `nth_next_grapheme_boundary` lives in
`kaka_core::graphemes`, whose source file is not part of the provided
tree.  Per the spec, the saved column is the resolved position's
distance into its line measured grapheme-aware; the model treats every
character as its own grapheme cluster, so the `n`-th next boundary after
`start` is `start + n`, clamped to the line's end. -/
def nth_next_grapheme_boundary (line : Str) (start : Nat) (n : Nat) : Nat :=
  min (start + n) line.length

/-- `Buffer` from editor/buffer.rs (ids are plain `Nat`s). -/
structure Buffer where
  id : Nat
  document_id : Nat
  avail_modes : List ModeKind
  current_mode : ModeData
  immortal : Bool
  saved_column : Nat
  text_pos : Nat
  line_idx : Nat
  line_char : Nat
  vscroll : Nat
deriving DecidableEq

/-- The position-resolution block of `Buffer::update_text_position`
(the in-bounds path up to and including the newline-avoidance clamp),
returning `(new_pos, line_idx)`.  It mirrors the source step by step:
the target line, the `line_keep` clamping (a `Less` target line resolves
to `self.line_char`, a `Greater` one to the character before the start
of the next line), and the retreat by one off a trailing newline on a
line longer than a single character.  This block only reads the
buffer's `line_idx` and `line_char` and is factored out because several
theorems refer to the resolved position; `update_text_position` below
performs the state updates around it.  The two plain `usize`
subtractions (`next_line_char - 1`, `new_pos -= 1`) are `Nat`
subtractions here; the proofs below show they cannot underflow in the
situations the claims quantify over (where Rust would panic instead of
wrapping). -/
def Buffer.resolve_target (b : Buffer) (text : Str) (pos : Nat)
    (params : UpdateBufPositionParams) : Nat × Nat :=
  let line_idx0 := char_to_line text pos
  let lk : Nat × Nat :=
    if params.line_keep then
      if line_idx0 < b.line_idx then
        (b.line_char, b.line_idx)
      else if b.line_idx < line_idx0 then
        (line_to_char text (min (b.line_idx + 1) (len_lines text - 1)) - 1, b.line_idx)
      else (pos, b.line_idx)
    else (pos, line_idx0)
  let new_pos0 := lk.1
  let line_idx := lk.2
  let line := lineAt text line_idx
  let new_pos :=
    if params.allow_on_newline = false ∧ 1 < line.length ∧
        (get_char text new_pos0 = none ∨ get_char text new_pos0 = some '\n') then
      new_pos0 - 1
    else new_pos0
  (new_pos, line_idx)

/-- The position `update_text_position` resolves an in-bounds request
to. -/
def Buffer.resolved_pos (b : Buffer) (text : Str) (pos : Nat)
    (params : UpdateBufPositionParams) : Nat :=
  (b.resolve_target text pos params).1

/-- `Buffer::update_text_position`.  Bounds check, position resolution
(`resolve_target` above), `line_char` refresh on a line change,
`saved_column` update, visual-selection update, and finally
`(self.text_pos != pos).then_some(new_pos)` — where at that point
`self.text_pos` has already been overwritten with `new_pos`, so the
returned option compares the resolved position against the *requested*
one. -/
def Buffer.update_text_position (b : Buffer) (text : Str) (pos : Nat)
    (params : UpdateBufPositionParams) : Buffer × Option Nat :=
  if text.length < pos then (b, none)
  else
    let rt := b.resolve_target text pos params
    let new_pos := rt.1
    let line_idx := rt.2
    let b1 := if line_idx ≠ b.line_idx then
        { b with line_char := line_to_char text line_idx } else b
    let line := lineAt text line_idx
    let old_pos := b1.text_pos
    let b2 := { b1 with line_idx := line_idx, text_pos := new_pos }
    let b3 := if params.update_saved_column then
        { b2 with
            saved_column := nth_next_grapheme_boundary line 0 (new_pos - b2.line_char) }
      else b2
    let b4 := if old_pos ≠ new_pos then
        { b3 with current_mode := b3.current_mode.update pos } else b3
    (b4, if new_pos ≠ pos then some new_pos else none)

/-! Predicates and helper functions used by the proofs. -/

/-- Every character of the string is a single UTF-8 byte, so byte
positions and character positions coincide. -/
def asciiStr (s : Str) : Prop := ∀ c ∈ s, c.utf8Size = 1

instance (s : Str) : Decidable (asciiStr s) :=
  show Decidable (∀ c ∈ s, c.utf8Size = 1) from inferInstance

/-- Every `Insert` node in the change list carries a single-byte-per-char
string. -/
def insertsAscii (c : List Change) : Prop :=
  ∀ s, Change.insert s ∈ c → asciiStr s

/-- The change list consists of `MoveForward` nodes only. -/
def onlyMoves (c : List Change) : Prop :=
  ∀ ch ∈ c, ∃ n, ch = Change.moveForward n

/-- Two change lists that apply identically on every position and text. -/
def ApplyEquiv (a b : List Change) : Prop :=
  ∀ pos t, applyChanges a pos t = applyChanges b pos t

/-- The inverse change list of `ChangeSet::undo`, written without the
merging of adjacent nodes, tracking the reading position `k` into the
original text.  It skips the same degenerate nodes the merging builder
skips (`insert` of an empty string, `delete` of zero length). -/
def undoList (original : Str) : List Change → Nat → List Change
  | [], _ => []
  | Change.moveForward n :: rest, k =>
      Change.moveForward n :: undoList original rest (k + n)
  | Change.insert s :: rest, k =>
      if s.length = 0 then undoList original rest k
      else Change.delete s.length :: undoList original rest k
  | Change.delete len :: rest, k =>
      let s := (original.drop k).take len
      if s.length = 0 then undoList original rest (k + s.length)
      else Change.insert s :: undoList original rest (k + s.length)

/-! Concrete instances used in counterexamples and witnesses. -/

/-- The characters of the string `"test"`. -/
def testStr : Str := ['t', 'e', 's', 't']

/-- The transaction `insert "test"; set_repeat 1000` over the empty
text, as the mutators build it. -/
def txC4 : Transaction :=
  { repeat_count := 1000, len_before := 0, len_after := 4,
    changesets := [⟨0, 4, [Change.insert testStr]⟩] }

/-- The transaction `insert "é"; delete 1` over the text `"ab"`,
as the mutators build it. -/
def txCe1 : Transaction :=
  { repeat_count := 1, len_before := 2, len_after := 3,
    changesets := [⟨0, 1, [Change.insert ['é'], Change.delete 1]⟩] }

/-- The transaction `insert "XY"; move_backward_by 1; delete 2` over the
text `"abcd"`, as the mutators build it. -/
def txCe2 : Transaction :=
  { repeat_count := 1, len_before := 4, len_after := 6,
    changesets := [⟨0, 2, [Change.insert ['X', 'Y']]⟩, ⟨1, 1, [Change.delete 2]⟩] }

/-- The transaction `delete 1; set_repeat 2` over the text `"abc"`, as
the mutators build it. -/
def txCe3 : Transaction :=
  { repeat_count := 2, len_before := 3, len_after := 3,
    changesets := [⟨0, 0, [Change.delete 1]⟩] }

/-- The transaction of the spec's concrete scenario over `"hello tx"`:
`move_forward_by 1; delete 3; insert "xxxy"`. -/
def txHello : Transaction :=
  { repeat_count := 1, len_before := 8, len_after := 9,
    changesets := [⟨0, 5, [Change.moveForward 1, Change.delete 3,
                           Change.insert ['x', 'x', 'x', 'y']]⟩] }

/-- A cursor-only transaction (`move_forward_by 2` from position 0 of an
empty text): `changes_text` is false. -/
def txMoveOnly : Transaction :=
  { repeat_count := 1, len_before := 0, len_after := 0,
    changesets := [⟨0, 2, [Change.moveForward 2]⟩] }

/-- A text-changing transaction (`insert "x"` at position 0 of an empty
text). -/
def txInsX : Transaction :=
  { repeat_count := 1, len_before := 0, len_after := 1,
    changesets := [⟨0, 1, [Change.insert ['x']]⟩] }

/-- A fresh buffer, as `Buffer::new` initialises the position fields. -/
def buf0 : Buffer :=
  { id := 1, document_id := 1, avail_modes := [ModeKind.normal],
    current_mode := ModeData.normal, immortal := false, saved_column := 0,
    text_pos := 0, line_idx := 0, line_char := 0, vscroll := 0 }

/-- A two-commit history with the head at the top. -/
def histEx : History :=
  { commits := [Commit.with_timestamp [] txInsX 10, Commit.with_timestamp ['x'] txInsX 11],
    head := 2 }

/-- A document with an open transaction over the text `"ab"` whose
callback will mutate the text in place. -/
def docEx : Document :=
  { id := 1, text := ['a', 'b'], fs_metadata := none,
    tx_context := some { transaction := Transaction.new ['a', 'b'] 0,
                         saved_text := ['a', 'b'] },
    history := { commits := [], head := 0 } }

/-- The always-rollback callback that also scribbles over the text, used
to witness C8. -/
def cbRollback : Document → Transaction → Document × Transaction × TransactionLeave :=
  fun d t => ({ d with text := ['z'] }, t, TransactionLeave.rollback)

/-! ## Claim C9: pure-cursor transactions never enter history -/

/-- C9: for every `History` state and every `Transaction` with
`changes_text() == false`, `create_commit` leaves the history completely
unchanged — commits and head are identical, the transaction never enters
history. -/
theorem C9_pure_movement_never_commits (h : History) (now : Nat) (text : Str)
    (tx : Transaction) (htx : tx.changes_text = false) :
    h.create_commit now text tx = h := by
  simp [History.create_commit, htx]

/-- Witness for C9: a concrete move-only transaction against a concrete
history. -/
theorem C9_pure_movement_never_commits_witness :
    txMoveOnly.changes_text = false ∧
      histEx.create_commit 42 ['a'] txMoveOnly = histEx :=
  ⟨by decide, C9_pure_movement_never_commits histEx 42 ['a'] txMoveOnly (by decide)⟩

/-! ## Claim C10: out-of-bounds position requests are state-preserving no-ops -/

/-- C10: for every buffer state and every target position strictly
greater than the text's character length, `update_text_position` returns
`None` and leaves the whole buffer (in particular `text_pos`, `line_idx`,
`line_char`, `saved_column`) unchanged. -/
theorem C10_out_of_bounds_noop (b : Buffer) (text : Str) (pos : Nat)
    (params : UpdateBufPositionParams) (hpos : text.length < pos) :
    (b.update_text_position text pos params).2 = none ∧
      (b.update_text_position text pos params).1 = b := by
  simp [Buffer.update_text_position, hpos]

/-- Witness for C10 at a concrete out-of-bounds request. -/
theorem C10_out_of_bounds_noop_witness :
    (['a', 'b'] : Str).length < 5 ∧
      (buf0.update_text_position ['a', 'b'] 5 UpdateBufPositionParams.default).2 = none ∧
      (buf0.update_text_position ['a', 'b'] 5 UpdateBufPositionParams.default).1 = buf0 :=
  ⟨by decide,
   C10_out_of_bounds_noop buf0 ['a', 'b'] 5 UpdateBufPositionParams.default (by decide)⟩

/-! ## Claim C2: `end_pos` versus the position returned by `apply` -/

/-- C2 fails on the code: `ChangeSet::apply` advances the returned cursor
by the UTF-8 *byte* length of an inserted string (`content.len()`), while
`insert` advances `end_pos` by its *character* count.  For the changeset
built by `ChangeSet::new(0).insert("é")`, `end_pos` is 1 but replaying
from `start_pos` with `apply(0, "x")` returns cursor position 2. -/
theorem C2_end_pos_apply_divergence :
    (((ChangeSet.new 0).insert ['é']).1.end_pos = 1) ∧
      (((ChangeSet.new 0).insert ['é']).1.apply 0 ['x'] = some (2, ['é', 'x'])) ∧
      (2 : Nat) ≠ 1 := by
  decide

/-! ## Claim C1: the undo round-trip -/

/-- C1 fails on the code as stated; this records three independent
counterexamples, each a transaction built with the public mutators whose
application succeeds but whose undo does not restore the original text:
(a) a non-ASCII insert followed by a delete (byte/char position mixing),
(b) an ASCII multi-changeset transaction whose second changeset deletes
text the first one inserted,
(c) an ASCII single-changeset delete with `set_repeat(2)` (the second
pass deletes different characters than the recorded inversion restores). -/
theorem C1_counterexamples :
    ((((Transaction.new ['a', 'b'] 0).insert ['é']).bind
        (fun t => t.delete 1) = some txCe1) ∧
      txCe1.apply ['a', 'b'] = some (2, ['é', 'a']) ∧
      (txCe1.undo ['a', 'b']).apply ['é', 'a'] = some (1, ['a', 'a']) ∧
      (['a', 'a'] : Str) ≠ ['a', 'b']) ∧
    (((((Transaction.new ['a', 'b', 'c', 'd'] 0).insert ['X', 'Y']).bind
        (fun t => t.move_backward_by 1)).bind
        (fun t => t.delete 2) = some txCe2) ∧
      txCe2.apply ['a', 'b', 'c', 'd'] = some (1, ['X', 'b', 'c', 'd']) ∧
      (txCe2.undo ['a', 'b', 'c', 'd']).apply ['X', 'b', 'c', 'd'] =
        some (0, ['c', 'b', 'c', 'd']) ∧
      (['c', 'b', 'c', 'd'] : Str) ≠ ['a', 'b', 'c', 'd']) ∧
    ((((Transaction.new ['a', 'b', 'c'] 0).delete 1).bind
        (fun t => t.set_repeat 2) = some txCe3) ∧
      txCe3.apply ['a', 'b', 'c'] = some (0, ['c']) ∧
      (txCe3.undo ['a', 'b', 'c']).apply ['c'] = some (2, ['a', 'a', 'c']) ∧
      (['a', 'a', 'c'] : Str) ≠ ['a', 'b', 'c']) := by
  decide

/-! ## Claim C3: the return value of `update_text_position` -/

/-- C3 fails on the code: with text `"ab"` and a buffer whose `text_pos`
is 0, requesting position 1 moves `text_pos` from 0 to 1 — the resolved
position differs from the position before the call — yet the function
returns `None`, because the source compares the resolved position against
the *requested* `pos`, not against the pre-call `text_pos`. -/
theorem C3_counterexample :
    buf0.text_pos = 0 ∧
      (buf0.update_text_position ['a', 'b'] 1 UpdateBufPositionParams.default).1.text_pos
        = 1 ∧
      (buf0.update_text_position ['a', 'b'] 1 UpdateBufPositionParams.default).2
        = none := by
  decide

/-- What `update_text_position` returns for an in-bounds request: the new
`text_pos` is the resolved position, and the returned option is `some`
of it exactly when it differs from the requested `pos`. -/
theorem update_text_position_characterisation (b : Buffer) (text : Str) (pos : Nat)
    (params : UpdateBufPositionParams) (h : ¬ text.length < pos) :
    (b.update_text_position text pos params).1.text_pos = b.resolved_pos text pos params ∧
      (b.update_text_position text pos params).2 =
        (if b.resolved_pos text pos params ≠ pos then
          some (b.resolved_pos text pos params) else none) := by
  unfold Buffer.update_text_position Buffer.resolved_pos
  rw [if_neg h]
  dsimp only
  constructor
  · split_ifs <;> rfl
  · rfl

/-- C3, amended: for an in-bounds request, `update_text_position` returns
`Some(resolved)` exactly when the resolved position differs from the
*requested* position `pos` (the clamping changed it), and `None` when the
resolved position equals `pos` — regardless of the `text_pos` the buffer
held before the call. -/
theorem C3_return_value_amended (b : Buffer) (text : Str) (pos : Nat)
    (params : UpdateBufPositionParams) (hpos : pos ≤ text.length) :
    ((b.update_text_position text pos params).2 = none ↔
        b.resolved_pos text pos params = pos) ∧
      (∀ x, (b.update_text_position text pos params).2 = some x →
        x = b.resolved_pos text pos params ∧ x ≠ pos) ∧
      (b.update_text_position text pos params).1.text_pos =
        b.resolved_pos text pos params := by
  have h := update_text_position_characterisation b text pos params (by omega)
  refine ⟨?_, ?_, h.1⟩
  · rw [h.2]
    split
    · next hne => simp [hne]
    · next hne => simp; omega
  · intro x hx
    rw [h.2] at hx
    revert hx
    split
    · next hne => intro hx; cases hx; exact ⟨rfl, hne⟩
    · intro hx; cases hx

/-- Witness for C3 at a concrete input: on `"kaka\n"` the request for
position 4 (the newline) resolves to 3. -/
theorem C3_return_value_amended_witness :
    (buf0.update_text_position ['k', 'a', 'k', 'a', '\n'] 4
        UpdateBufPositionParams.default).1.text_pos =
      buf0.resolved_pos ['k', 'a', 'k', 'a', '\n'] 4 UpdateBufPositionParams.default :=
  (C3_return_value_amended buf0 ['k', 'a', 'k', 'a', '\n'] 4
    UpdateBufPositionParams.default (by decide)).2.2

/-! ## Claim C7: the head discipline of `History` -/

/-- C7: while `head ≤ commits.len()`, `undo` returns `None` exactly when
`head == 0` and otherwise decrements `head` and returns the inversion at
the new head index; `redo` returns `None` exactly when
`head == commits.len()` and otherwise returns the forward transaction at
the old head and increments it; and all three operations keep `head`
within `[0, commits.len()]`. -/
theorem C7_history_head_discipline (h : History) (hwf : h.head ≤ h.commits.length) :
    (h.undo.2 = none ↔ h.head = 0) ∧
      (h.redo.2 = none ↔ h.head = h.commits.length) ∧
      (∀ i, h.head = i + 1 →
        ∃ c, h.commits.get? i = some c ∧
          h.undo = ({ h with head := i }, some c.inversion)) ∧
      (h.head < h.commits.length →
        ∃ c, h.commits.get? h.head = some c ∧
          h.redo = ({ h with head := h.head + 1 }, some c.transaction)) ∧
      h.undo.1.head ≤ h.undo.1.commits.length ∧
      h.redo.1.head ≤ h.redo.1.commits.length ∧
      (∀ now text tx, (h.create_commit now text tx).head ≤
        (h.create_commit now text tx).commits.length) := by
  refine ⟨?_, ?_, ?_, ?_, ?_, ?_, ?_⟩
  · match hh : h.head with
    | 0 => simp [History.undo, hh]
    | i + 1 =>
        have hi : i < h.commits.length := by omega
        simp [History.undo, hh, List.getElem?_eq_getElem hi]
  · rw [History.redo]
    split
    · next hlt => simp [List.getElem?_eq_getElem hlt]; omega
    · next hge => simp; omega
  · intro i hh
    have hi : i < h.commits.length := by omega
    refine ⟨h.commits.get ⟨i, hi⟩, ?_, ?_⟩
    · simp [List.getElem?_eq_getElem hi]
    · simp [History.undo, hh, List.getElem?_eq_getElem hi]
  · intro hlt
    refine ⟨h.commits.get ⟨h.head, hlt⟩, ?_, ?_⟩
    · simp [List.getElem?_eq_getElem hlt]
    · simp [History.redo, hlt, List.getElem?_eq_getElem hlt]
  · match hh : h.head with
    | 0 => simp [History.undo, hh]
    | i + 1 => simp [History.undo, hh]; omega
  · rw [History.redo]
    split
    · next hlt => simp; omega
    · simp; omega
  · intro now text tx
    rw [History.create_commit]
    split
    · exact hwf
    · simp [List.length_take]; omega

/-- Witness for C7 at a concrete two-commit history. -/
theorem C7_history_head_discipline_witness :
    (histEx.undo.2 = none ↔ histEx.head = 0) ∧
      (histEx.redo.2 = none ↔ histEx.head = histEx.commits.length) ∧
      (∀ i, histEx.head = i + 1 →
        ∃ c, histEx.commits.get? i = some c ∧
          histEx.undo = ({ histEx with head := i }, some c.inversion)) ∧
      (histEx.head < histEx.commits.length →
        ∃ c, histEx.commits.get? histEx.head = some c ∧
          histEx.redo = ({ histEx with head := histEx.head + 1 }, some c.transaction)) ∧
      histEx.undo.1.head ≤ histEx.undo.1.commits.length ∧
      histEx.redo.1.head ≤ histEx.redo.1.commits.length ∧
      (∀ now text tx, (histEx.create_commit now text tx).head ≤
        (histEx.create_commit now text tx).commits.length) :=
  C7_history_head_discipline histEx (by decide)

/-! ## Claim C6: committing after an undo kills the redo branch -/

/-- C6: after a successful `undo()` followed by `create_commit` with a
text-changing transaction, `redo()` returns `None`, `head` equals
`commits.len()`, and the commits list is the old list truncated at the
new commit — the commit that was ahead of the head is discarded. -/
theorem C6_commit_after_undo_kills_redo (h : History) (now : Nat) (text : Str)
    (tx : Transaction) (hwf : h.head ≤ h.commits.length) (hh : h.head ≠ 0)
    (htx : tx.changes_text = true) :
    (let h2 := (h.undo.1).create_commit now text tx
     h2.redo = (h2, none) ∧ h2.head = h2.commits.length ∧
       h2.commits = h.commits.take (h.head - 1) ++
         [Commit.with_timestamp text tx now]) := by
  match hh2 : h.head, hh with
  | i + 1, _ =>
      have h1 : h.undo.1 = { h with head := i } := by simp [History.undo, hh2]
      rw [h1]
      have hcc : ({ h with head := i } : History).create_commit now text tx =
          { commits := h.commits.take i ++ [Commit.with_timestamp text tx now],
            head := i + 1 } := by
        simp [History.create_commit, htx]
      rw [hcc]
      have hlen : (h.commits.take i ++ [Commit.with_timestamp text tx now]).length
          = i + 1 := by
        simp [List.length_take]; omega
      refine ⟨?_, by simp [hlen], by simp⟩
      rw [History.redo]
      split
      · next hlt =>
          exfalso
          have hlt2 : i + 1 <
              (List.take i h.commits ++ [Commit.with_timestamp text tx now]).length := hlt
          omega
      · rfl

/-- Witness for C6 at a concrete two-commit history. -/
theorem C6_commit_after_undo_kills_redo_witness :
    (let h2 := (histEx.undo.1).create_commit 99 ['a'] txInsX
     h2.redo = (h2, none) ∧ h2.head = h2.commits.length ∧
       h2.commits = histEx.commits.take (histEx.head - 1) ++
         [Commit.with_timestamp ['a'] txInsX 99]) :=
  C6_commit_after_undo_kills_redo histEx 99 ['a'] txInsX (by decide) (by decide)
    (by decide)

/-! ## Claim C8: rollback restores the snapshot atomically -/

/-- C8: when the callback hands back the `Rollback` directive, the
document's live text afterwards equals the `saved_text` snapshot taken
when the transaction was opened, the open-transaction context is gone,
and nothing is recorded into `History` — whatever the callback mutated
in place on the text is discarded.  The two frame hypotheses say the
callback itself neither opens a new context nor touches the history,
which holds for every callback in the tree (they only edit the text and
the transaction). -/
theorem C8_rollback_restores_snapshot (doc : Document) (ctx : TransactionContext)
    (cb : Document → Transaction → Document × Transaction × TransactionLeave)
    (now : Nat) (hctx : doc.tx_context = some ctx)
    (hleave : (cb { doc with tx_context := none } ctx.transaction).2.2 =
      TransactionLeave.rollback)
    (hcb_ctx : (cb { doc with tx_context := none } ctx.transaction).1.tx_context = none)
    (hcb_hist : (cb { doc with tx_context := none } ctx.transaction).1.history =
      doc.history) :
    ∃ d2, doc.with_transaction cb now = some d2 ∧
      d2.text = ctx.saved_text ∧ d2.tx_context = none ∧ d2.history = doc.history := by
  refine ⟨{ (cb { doc with tx_context := none } ctx.transaction).1 with
              text := ctx.saved_text }, ?_, rfl, hcb_ctx, hcb_hist⟩
  unfold Document.with_transaction
  rw [hctx]
  dsimp only
  rw [hleave]

/-- Witness for C8: a concrete document whose callback mutates the text
in place and rolls back. -/
theorem C8_rollback_restores_snapshot_witness :
    ∃ d2, docEx.with_transaction cbRollback 7 = some d2 ∧
      d2.text = (['a', 'b'] : Str) ∧ d2.tx_context = none ∧
      d2.history = docEx.history :=
  C8_rollback_restores_snapshot docEx
    { transaction := Transaction.new ['a', 'b'] 0, saved_text := ['a', 'b'] }
    cbRollback 7 rfl rfl rfl rfl

/-! ## Claim C4: repeat semantics of the `insert "test"` transaction -/

/-- `byteLen "test" = 4`: four single-byte characters. -/
theorem byteLen_testStr : byteLen testStr = 4 := by decide

/-- Unfolding one pass of the repeat loop. -/
theorem applyPasses_succ (changesets : List ChangeSet) (pos1 n : Nat)
    (offset : Option Int) (pos : Nat) (rope : Str) :
    applyPasses changesets pos1 (n + 1) offset pos rope =
      match applyChangesets changesets (offset.getD 0) pos rope with
      | none => none
      | some (p, r2) =>
          applyPasses changesets pos1 n
            (some (offset.getD ((p : Int) - (pos1 : Int)))) p r2 := rfl

/-- Concatenating one more copy of `s` commutes across the joined
replicas. -/
theorem flatten_replicate_comm (k : Nat) (s : Str) :
    (List.replicate k s).flatten ++ s = s ++ (List.replicate k s).flatten := by
  induction k with
  | zero => simp
  | succ k ih =>
      simp only [List.replicate_succ, List.flatten_cons, List.append_assoc, ih]

/-- A pass of the `insert "test"` transaction's loop with the captured
offset 4 splices a copy of `"test"` at position 4 and reports cursor
position 8. -/
theorem applyChangesets_insert_testStr (p : Nat) (r : Str) :
    applyChangesets [⟨0, 4, [Change.insert testStr]⟩] 4 p (testStr ++ r) =
      some (8, testStr ++ (testStr ++ r)) := by
  have hb : byteLen ['t', 'e', 's', 't'] = 4 := by decide
  simp [applyChangesets, ChangeSet.apply, applyChanges, hb, ropeInsert, testStr]

/-- The repeat loop of the `insert "test"` transaction, after the first
pass: `k` further passes append `k` more copies. -/
theorem applyPasses_insert_testStr (k : Nat) :
    ∀ (p : Nat) (r : Str),
      applyPasses [⟨0, 4, [Change.insert testStr]⟩] 0 k (some 4) p (testStr ++ r) =
        some (if k = 0 then p else 8,
          testStr ++ ((List.replicate k testStr).flatten ++ r)) := by
  induction k with
  | zero => intro p r; simp [applyPasses]
  | succ k ih =>
      intro p r
      rw [applyPasses_succ]
      simp only [Option.getD_some, applyChangesets_insert_testStr]
      rw [ih 8 (testStr ++ r)]
      rw [ite_self, if_neg (by omega : ¬(k + 1 = 0))]
      have harr : (List.replicate k testStr).flatten ++ (testStr ++ r) =
          testStr ++ ((List.replicate k testStr).flatten ++ r) := by
        rw [← List.append_assoc, flatten_replicate_comm, List.append_assoc]
      rw [harr]
      simp [List.replicate_succ, List.flatten_cons]

/-- A pass of the recorded inversion's loop (`delete 4` at position 0)
with the captured offset 0 peels one copy of `"test"` off the front. -/
theorem applyChangesets_delete_testStr (p : Nat) (r : Str) :
    applyChangesets [⟨0, 0, [Change.delete 4]⟩] 0 p (testStr ++ r) =
      some (0, r) := by
  simp [applyChangesets, ChangeSet.apply, applyChanges, ropeRemove, testStr]

/-- The repeat loop of the inversion, after the first pass: `k` further
passes remove `k` copies. -/
theorem applyPasses_delete_testStr (k : Nat) :
    ∀ (p : Nat) (r : Str),
      applyPasses [⟨0, 0, [Change.delete 4]⟩] 0 k (some 0) p
          ((List.replicate k testStr).flatten ++ r) =
        some (if k = 0 then p else 0, r) := by
  induction k with
  | zero => intro p r; simp [applyPasses]
  | succ k ih =>
      intro p r
      rw [applyPasses_succ]
      simp only [List.replicate_succ, List.flatten_cons, List.append_assoc,
        Option.getD_some, applyChangesets_delete_testStr]
      rw [ih 0 r]
      simp

/-- `Transaction::apply` in terms of the pass loop, for a transaction
with a known changeset list. -/
theorem Transaction.apply_eq_applyPasses (tx : Transaction) (c0 : ChangeSet)
    (rest : List ChangeSet) (rope : Str) (hc : tx.changesets = c0 :: rest) :
    tx.apply rope =
      applyPasses tx.changesets c0.start_pos tx.repeat_count none 0 rope := by
  unfold Transaction.apply Transaction.apply_impl
  rw [hc]
  simp

/-- C4: the transaction built by `insert("test")` and `set_repeat(1000)`
over the empty text, applied to that empty text, yields exactly 1000
joined copies of `"test"` — and its undo, computed against the empty
original, applied to that result yields the empty text again. -/
theorem C4_repeat_insert_1000 :
    (((Transaction.new [] 0).insert testStr).bind
        (fun t => t.set_repeat 1000) = some txC4) ∧
      txC4.apply [] = some (8, (List.replicate 1000 testStr).flatten) ∧
      (txC4.undo []).apply ((List.replicate 1000 testStr).flatten) =
        some (0, []) := by
  refine ⟨by decide, ?_, ?_⟩
  · show applyPasses [⟨0, 4, [Change.insert testStr]⟩] 0 1000 none 0 [] = _
    rw [show (1000 : Nat) = 999 + 1 from rfl, applyPasses_succ]
    have hfirst : applyChangesets [⟨0, 4, [Change.insert testStr]⟩]
        ((none : Option Int).getD 0) 0 [] = some (4, testStr) := by
      simp [applyChangesets, ChangeSet.apply, applyChanges, byteLen_testStr,
        ropeInsert]
    rw [hfirst]
    show applyPasses _ _ _ (some ((4 : Int) - (0 : Int))) _ _ = _
    norm_num
    have h999 := applyPasses_insert_testStr 999 4 []
    rw [List.append_nil] at h999
    rw [h999]
    rw [if_neg (by omega : ¬(999 = 0))]
    have hjoin : (List.replicate 1000 testStr).flatten =
        testStr ++ ((List.replicate 999 testStr).flatten ++ []) := by
      rw [show (1000 : Nat) = 999 + 1 from rfl, List.replicate_succ,
        List.flatten_cons, List.append_nil]
    rw [hjoin]
  · have hundo : txC4.undo [] =
        { repeat_count := 1000, len_before := 4, len_after := 4,
          changesets := [⟨0, 0, [Change.delete 4]⟩] } := by decide
    rw [hundo, Transaction.apply_eq_applyPasses _ ⟨0, 0, [Change.delete 4]⟩ [] _ rfl]
    dsimp only
    rw [show (1000 : Nat) = 999 + 1 from rfl, applyPasses_succ]
    have hsplit : (List.replicate (999 + 1) testStr).flatten =
        testStr ++ ((List.replicate 999 testStr).flatten ++ []) := by
      rw [List.replicate_succ, List.flatten_cons, List.append_nil]
    rw [hsplit]
    have hfirst : applyChangesets [⟨0, 0, [Change.delete 4]⟩]
        ((none : Option Int).getD 0) 0
        (testStr ++ ((List.replicate 999 testStr).flatten ++ [])) =
        some (0, (List.replicate 999 testStr).flatten ++ []) := by
      rw [Option.getD_none]
      exact applyChangesets_delete_testStr 0 ((List.replicate 999 testStr).flatten ++ [])
    rw [hfirst]
    dsimp only
    simp only [Option.getD_none, Nat.cast_zero, sub_zero]
    have h999 := applyPasses_delete_testStr 999 0 []
    rw [h999]
    rw [if_neg (by omega : ¬(999 = 0))]

/-! ## Claim C1: the single-changeset round-trip.
First, arithmetic of `applyChanges` over list splits. -/

/-- On a single-byte-per-char string the byte length is the character
count. -/
theorem byteLen_eq_length {s : Str} (h : asciiStr s) : byteLen s = s.length := by
  induction s with
  | nil => rfl
  | cons c rest ih =>
      have hc : c.utf8Size = 1 := h c (by simp)
      have hr : asciiStr rest := fun x hx => h x (by simp [hx])
      have ih2 := ih hr
      simp only [byteLen, List.map_cons, List.sum_cons] at ih2 ⊢
      rw [hc, ih2, List.length_cons, Nat.add_comm]

/-- `asciiStr` restricts along sublists. -/
theorem asciiStr_take {t : Str} (h : asciiStr t) (n : Nat) : asciiStr (t.take n) :=
  fun c hc => h c (List.take_subset n t hc)

/-- `asciiStr` restricts along sublists. -/
theorem asciiStr_drop {t : Str} (h : asciiStr t) (n : Nat) : asciiStr (t.drop n) :=
  fun c hc => h c (List.drop_subset n t hc)

/-- Taking a prefix-length split of an append. -/
theorem take_append_add (P t : Str) (j : Nat) :
    (P ++ t).take (P.length + j) = P ++ t.take j := by
  rw [List.take_append_eq_append_take]
  congr 1
  · exact List.take_of_length_le (by omega)
  · congr 1
    omega

/-- Dropping a prefix-length split of an append. -/
theorem drop_append_add (P t : Str) (j : Nat) :
    (P ++ t).drop (P.length + j) = t.drop j := by
  rw [List.drop_append_eq_append_drop]
  rw [List.drop_eq_nil_of_le (by omega)]
  rw [List.nil_append]
  congr 1
  omega

/-- `ropeInsert` past a fixed prefix. -/
theorem ropeInsert_shift (P : Str) (j : Nat) (s t : Str) :
    ropeInsert (P.length + j) s (P ++ t) = P ++ ropeInsert j s t := by
  unfold ropeInsert
  rw [take_append_add, drop_append_add]
  simp [List.append_assoc]

/-- `ropeRemove` past a fixed prefix. -/
theorem ropeRemove_shift (P : Str) (j n : Nat) (t : Str) :
    ropeRemove (P.length + j) n (P ++ t) = P ++ ropeRemove j n t := by
  unfold ropeRemove
  rw [take_append_add, Nat.add_assoc, drop_append_add, List.append_assoc]

/-- `applyChanges` on a concatenation of change lists. -/
theorem applyChanges_append (a b : List Change) (pos : Nat) (t : Str) :
    applyChanges (a ++ b) pos t =
      (applyChanges a pos t).bind (fun pr => applyChanges b pr.1 pr.2) := by
  induction a generalizing pos t with
  | nil => simp [applyChanges]
  | cons ch rest ih =>
      cases ch with
      | moveForward n => simp only [List.cons_append, applyChanges]; exact ih _ _
      | insert s =>
          simp only [List.cons_append, applyChanges]
          split
          · exact ih _ _
          · rfl
      | delete n =>
          simp only [List.cons_append, applyChanges]
          split
          · exact ih _ _
          · rfl

/-- A change list running at a position past a fixed prefix never looks
at the prefix: the run commutes with prepending `P`. -/
theorem applyChanges_shift (c : List Change) (P : Str) :
    ∀ (j : Nat) (t : Str),
      applyChanges c (P.length + j) (P ++ t) =
        (applyChanges c j t).map (fun pr => (P.length + pr.1, P ++ pr.2)) := by
  induction c with
  | nil => intro j t; simp [applyChanges]
  | cons ch rest ih =>
      intro j t
      cases ch with
      | moveForward n =>
          simp only [applyChanges]
          rw [Nat.add_assoc]
          exact ih (j + n) t
      | insert s =>
          simp only [applyChanges, List.length_append]
          by_cases hj : j ≤ t.length
          · rw [if_pos (by omega), if_pos hj, ropeInsert_shift, Nat.add_assoc]
            exact ih (j + byteLen s) (ropeInsert j s t)
          · rw [if_neg (by omega), if_neg hj]
            rfl
      | delete n =>
          simp only [applyChanges, List.length_append]
          by_cases hj : j + n ≤ t.length
          · rw [if_pos (by omega), if_pos hj, ropeRemove_shift]
            exact ih j (ropeRemove j n t)
          · rw [if_neg (by omega), if_neg hj]
            rfl

/-- Transport a run that starts at its prefix boundary onto a different
prefix. -/
theorem applyChanges_reprefix (U : List Change) (X Y W R : Str) (q : Nat)
    (h : applyChanges U X.length (X ++ W) = some (q, X ++ R)) :
    ∃ q2, applyChanges U Y.length (Y ++ W) = some (q2, Y ++ R) := by
  have h0 := applyChanges_shift U X 0 W
  rw [Nat.add_zero] at h0
  rw [h0] at h
  obtain ⟨⟨q0, W0⟩, hW0, hf⟩ := Option.map_eq_some'.mp h
  have hW0R : W0 = R := by
    have h2 := congrArg Prod.snd hf
    simp only at h2
    exact List.append_cancel_left h2
  have h1 := applyChanges_shift U Y 0 W
  rw [Nat.add_zero] at h1
  refine ⟨Y.length + q0, ?_⟩
  rw [h1, hW0, hW0R]
  rfl

/-- A run that starts past the end of the text can only have moved
forward: it never touched the text. -/
theorem applyChanges_overshoot (c : List Change) :
    ∀ (pos : Nat) (t : Str) (p : Nat) (T : Str), t.length < pos →
      applyChanges c pos t = some (p, T) → T = t ∧ onlyMoves c := by
  induction c with
  | nil =>
      intro pos t p T _ h
      simp only [applyChanges, Option.some_inj, Prod.mk.injEq] at h
      exact ⟨h.2.symm, fun ch hch => absurd hch (List.not_mem_nil ch)⟩
  | cons ch rest ih =>
      intro pos t p T hpos h
      cases ch with
      | moveForward n =>
          simp only [applyChanges] at h
          obtain ⟨hT, hm⟩ := ih (pos + n) t p T (by omega) h
          refine ⟨hT, fun x hx => ?_⟩
          rcases List.mem_cons.mp hx with hx | hx
          · exact ⟨n, hx⟩
          · exact hm x hx
      | insert s =>
          simp only [applyChanges] at h
          rw [if_neg (by omega)] at h
          cases h
      | delete n =>
          simp only [applyChanges] at h
          rw [if_neg (by omega)] at h
          cases h

/-- The undo of a pure-movement change list is itself. -/
theorem undoList_onlyMoves (O : Str) (c : List Change) :
    ∀ (k : Nat), onlyMoves c → undoList O c k = c := by
  induction c with
  | nil => intro k _; rfl
  | cons ch rest ih =>
      intro k hm
      obtain ⟨n, hn⟩ := hm ch (List.mem_cons_self ch rest)
      subst hn
      simp only [undoList]
      rw [ih (k + n) (fun x hx => hm x (List.mem_cons_of_mem _ hx))]

/-- A pure-movement change list always succeeds and leaves the text
alone. -/
theorem applyChanges_onlyMoves (c : List Change) :
    ∀ (pos : Nat) (t : Str), onlyMoves c →
      ∃ q, applyChanges c pos t = some (q, t) := by
  induction c with
  | nil => intro pos t _; exact ⟨pos, rfl⟩
  | cons ch rest ih =>
      intro pos t hm
      obtain ⟨n, hn⟩ := hm ch (List.mem_cons_self ch rest)
      subst hn
      obtain ⟨q, hq⟩ := ih (pos + n) t (fun x hx => hm x (List.mem_cons_of_mem _ hx))
      exact ⟨q, hq⟩

/-- The round-trip at the level of raw change lists: if a change list
runs successfully from the boundary of a settled prefix `X` with `k`
characters of the original text already consumed, then (i) the result
still has `X` as a prefix and ends in a suffix of the original, and
(ii) the unmerged inverse list `undoList` runs on the result and
restores the starting text exactly.  Requires every inserted string and
the original text to be single-byte-per-char, because `applyChanges`
advances over an insert by its byte length. -/
theorem undoList_round_trip (O : Str) (hO : asciiStr O) (c : List Change) :
    ∀ (k : Nat) (X : Str) (p : Nat) (T : Str),
      insertsAscii c → k ≤ O.length →
      applyChanges c X.length (X ++ O.drop k) = some (p, T) →
      (∃ Z m, m ≤ O.length ∧ T = X ++ Z ++ O.drop m) ∧
        ∃ q, applyChanges (undoList O c k) X.length T = some (q, X ++ O.drop k) := by
  induction c with
  | nil =>
      intro k X p T _ hk h
      simp only [applyChanges, Option.some_inj, Prod.mk.injEq] at h
      refine ⟨⟨[], k, hk, by simp [h.2.symm]⟩, X.length, ?_⟩
      simp [undoList, applyChanges, h.2.symm]
  | cons ch rest ih =>
      intro k X p T hins hk h
      have hinsr : insertsAscii rest :=
        fun s hs => hins s (List.mem_cons_of_mem _ hs)
      cases ch with
      | moveForward n =>
          simp only [applyChanges] at h
          by_cases hkn : k + n ≤ O.length
          · have hX1len : (X ++ (O.drop k).take n).length = X.length + n := by
              simp [List.length_take, List.length_drop]
              omega
            have hO2 : O.drop k = (O.drop k).take n ++ O.drop (k + n) :=
              (List.drop_take_append_drop O k n).symm
            have h2 : applyChanges rest (X ++ (O.drop k).take n).length
                ((X ++ (O.drop k).take n) ++ O.drop (k + n)) = some (p, T) := by
              rw [hX1len, List.append_assoc, ← hO2]
              exact h
            obtain ⟨⟨Z, m, hm, hT⟩, q, hq⟩ := ih (k + n) (X ++ (O.drop k).take n)
              p T hinsr hkn h2
            constructor
            · exact ⟨(O.drop k).take n ++ Z, m, hm, by
                rw [hT]; simp [List.append_assoc]⟩
            · refine ⟨q, ?_⟩
              simp only [undoList, applyChanges]
              rw [← hX1len]
              rw [hq, List.append_assoc, ← hO2]
          · have hover : (X ++ O.drop k).length < X.length + n := by
              simp [List.length_drop]
              omega
            obtain ⟨hT, hmoves⟩ := applyChanges_overshoot rest _ _ _ _ hover h
            refine ⟨⟨[], k, hk, by simp [hT]⟩, ?_⟩
            simp only [undoList]
            rw [undoList_onlyMoves O rest (k + n) hmoves]
            obtain ⟨q, hq⟩ := applyChanges_onlyMoves rest (X.length + n) T hmoves
            refine ⟨q, ?_⟩
            simp only [applyChanges]
            rw [hq, hT]
      | insert s =>
          simp only [applyChanges] at h
          rw [if_pos (by simp)] at h
          by_cases hs0 : s.length = 0
          · have hsnil : s = [] := List.length_eq_zero.mp hs0
            subst hsnil
            have hrope : ropeInsert X.length [] (X ++ O.drop k) = X ++ O.drop k := by
              unfold ropeInsert
              rw [List.append_nil, List.take_append_drop]
            rw [hrope] at h
            have hb : byteLen ([] : Str) = 0 := rfl
            rw [hb, Nat.add_zero] at h
            obtain ⟨hshape, q, hq⟩ := ih k X p T hinsr hk h
            refine ⟨hshape, q, ?_⟩
            simp only [undoList, if_pos rfl]
            exact hq
          · have hsa : asciiStr s := hins s (List.mem_cons_self _ _)
            rw [byteLen_eq_length hsa] at h
            have hrope : ropeInsert X.length s (X ++ O.drop k) =
                (X ++ s) ++ O.drop k := by
              unfold ropeInsert
              rw [List.take_left, List.drop_left]
            rw [hrope] at h
            have hlen1 : (X ++ s).length = X.length + s.length := by simp
            rw [← hlen1] at h
            obtain ⟨⟨Z, m, hm, hT⟩, q, hq⟩ := ih k (X ++ s) p T hinsr hk h
            constructor
            · exact ⟨s ++ Z, m, hm, by rw [hT]; simp [List.append_assoc]⟩
            · simp only [undoList, if_neg hs0]
              simp only [applyChanges]
              have hTW : T = (X ++ s) ++ (Z ++ O.drop m) := by
                rw [hT]; simp [List.append_assoc]
              have hcond : X.length + s.length ≤ T.length := by
                rw [hTW]
                simp only [List.length_append]
                omega
              rw [if_pos hcond]
              have hrem : ropeRemove X.length s.length T = X ++ (Z ++ O.drop m) := by
                rw [hTW]
                unfold ropeRemove
                rw [← hlen1, List.drop_left, List.append_assoc, List.take_left]
              rw [hrem]
              rw [hTW] at hq
              exact applyChanges_reprefix _ (X ++ s) X _ _ q hq
      | delete n =>
          simp only [applyChanges] at h
          have hlen : (X ++ O.drop k).length = X.length + (O.length - k) := by simp
          by_cases hcond : X.length + n ≤ (X ++ O.drop k).length
          · rw [if_pos hcond] at h
            have hkn : k + n ≤ O.length := by rw [hlen] at hcond; omega
            have hrm : ropeRemove X.length n (X ++ O.drop k) = X ++ O.drop (k + n) := by
              unfold ropeRemove
              rw [List.take_left, drop_append_add, List.drop_drop]
            rw [hrm] at h
            obtain ⟨⟨Z, m, hm, hT⟩, q, hq⟩ := ih (k + n) X p T hinsr hkn h
            refine ⟨⟨Z, m, hm, hT⟩, ?_⟩
            have hs0len : ((O.drop k).take n).length = n := by
              simp [List.length_take, List.length_drop]
              omega
            by_cases hn0 : n = 0
            · subst hn0
              simp only [undoList]
              rw [if_pos (by rw [hs0len])]
              rw [hs0len, Nat.add_zero]
              rw [Nat.add_zero] at hq
              exact ⟨q, hq⟩
            · simp only [undoList]
              rw [if_neg (by rw [hs0len]; exact hn0), hs0len]
              simp only [applyChanges]
              have hTW : T = X ++ (Z ++ O.drop m) := by
                rw [hT]; simp [List.append_assoc]
              rw [if_pos (by rw [hTW]; simp)]
              have hs0a : asciiStr ((O.drop k).take n) :=
                asciiStr_take (asciiStr_drop hO k) n
              rw [byteLen_eq_length hs0a, hs0len]
              have hrope2 : ropeInsert X.length ((O.drop k).take n) T =
                  (X ++ (O.drop k).take n) ++ (Z ++ O.drop m) := by
                rw [hTW]
                unfold ropeInsert
                rw [List.take_left, List.drop_left]
              rw [hrope2]
              have hXs0 : (X ++ (O.drop k).take n).length = X.length + n := by
                simp [hs0len]
              rw [← hXs0]
              rw [hTW] at hq
              obtain ⟨q2, hq2⟩ :=
                applyChanges_reprefix _ X (X ++ (O.drop k).take n) _ _ q hq
              refine ⟨q2, ?_⟩
              rw [hq2]
              have hback : (X ++ (O.drop k).take n) ++ O.drop (k + n) =
                  X ++ O.drop k := by
                rw [List.append_assoc, List.drop_take_append_drop]
              rw [hback]
          · rw [if_neg hcond] at h
            cases h

/-! Equivalence between the merging changeset builder and the raw
inverse list. -/

/-- A list with a known last element splits off that element. -/
theorem getLast?_decomp {α : Type} {l : List α} {x : α} (h : l.getLast? = some x) :
    l = l.dropLast ++ [x] := by
  have hne : l ≠ [] := by
    intro he
    subst he
    simp at h
  have h2 := List.getLast?_eq_getLast l hne
  rw [h] at h2
  have hx : x = l.getLast hne := by
    injection h2
  rw [hx]
  exact (List.dropLast_append_getLast hne).symm

/-- `ApplyEquiv` is reflexive. -/
theorem ApplyEquiv.rfl (a : List Change) : ApplyEquiv a a := fun _ _ => Eq.refl _

/-- `ApplyEquiv` is transitive. -/
theorem ApplyEquiv.trans {a b c : List Change} (h1 : ApplyEquiv a b)
    (h2 : ApplyEquiv b c) : ApplyEquiv a c :=
  fun pos t => (h1 pos t).trans (h2 pos t)

/-- `ApplyEquiv` is a congruence for appending on the right. -/
theorem ApplyEquiv.append_right {a b : List Change} (d : List Change)
    (h : ApplyEquiv a b) : ApplyEquiv (a ++ d) (b ++ d) := by
  intro pos t
  rw [applyChanges_append, applyChanges_append, h pos t]

/-- Byte length distributes over append. -/
theorem byteLen_append (a b : Str) : byteLen (a ++ b) = byteLen a + byteLen b := by
  simp [byteLen]

/-- `asciiStr` is closed under append. -/
theorem asciiStr_append {a b : Str} (ha : asciiStr a) (hb : asciiStr b) :
    asciiStr (a ++ b) := by
  intro c hc
  rcases List.mem_append.mp hc with hc | hc
  · exact ha c hc
  · exact hb c hc

/-- The length of a removal, within bounds. -/
theorem ropeRemove_length (pos len : Nat) (t : Str) (h : pos + len ≤ t.length) :
    (ropeRemove pos len t).length = t.length - len := by
  simp only [ropeRemove, List.length_append, List.length_take, List.length_drop]
  omega

/-- The length of an insertion, within bounds. -/
theorem ropeInsert_length (pos : Nat) (s t : Str) (h : pos ≤ t.length) :
    (ropeInsert pos s t).length = t.length + s.length := by
  simp only [ropeInsert, List.length_append, List.length_take, List.length_drop]
  omega

/-- Two removals at the same position compose into one. -/
theorem ropeRemove_ropeRemove (pos prev n : Nat) (t : Str)
    (h1 : pos + prev ≤ t.length) :
    ropeRemove pos n (ropeRemove pos prev t) = ropeRemove pos (prev + n) t := by
  have hA : (t.take pos).length = pos := by
    simp only [List.length_take]
    omega
  unfold ropeRemove
  rw [List.take_append_eq_append_take, List.take_take, Nat.min_self, hA, Nat.sub_self,
    List.take_zero, List.append_nil, List.drop_append_eq_append_drop,
    List.drop_eq_nil_of_le (by omega : (t.take pos).length ≤ pos + n),
    List.nil_append, hA, (by omega : pos + n - pos = n), List.drop_drop,
    (by omega : pos + prev + n = pos + (prev + n))]

/-- Two insertions, the second right after the first, compose into one
(char positions: the first content must be single-byte-per-char for the
byte-advanced position to sit right after it). -/
theorem ropeInsert_ropeInsert (pos : Nat) (c s t : Str) (h1 : pos ≤ t.length) :
    ropeInsert (pos + c.length) s (ropeInsert pos c t) = ropeInsert pos (c ++ s) t := by
  have hAc : (t.take pos ++ c).length = pos + c.length := by
    simp only [List.length_append, List.length_take]
    omega
  show ropeInsert (pos + c.length) s ((t.take pos ++ c) ++ t.drop pos) = _
  unfold ropeInsert
  rw [List.take_left' hAc, List.drop_left' hAc]
  simp [List.append_assoc]

/-- Merging two adjacent moves is apply-equivalent to keeping them. -/
theorem merge_moves_equiv (prev n : Nat) (pos : Nat) (t : Str) :
    applyChanges [Change.moveForward (prev + n)] pos t =
      applyChanges [Change.moveForward prev, Change.moveForward n] pos t := by
  simp [applyChanges, Nat.add_assoc]

/-- Merging two adjacent deletes is apply-equivalent to keeping them. -/
theorem merge_dels_equiv (prev n : Nat) (pos : Nat) (t : Str) :
    applyChanges [Change.delete (prev + n)] pos t =
      applyChanges [Change.delete prev, Change.delete n] pos t := by
  simp only [applyChanges]
  by_cases h1 : pos + prev ≤ t.length
  · rw [if_pos h1]
    by_cases h2 : pos + n ≤ (ropeRemove pos prev t).length
    · have h2b : pos + (prev + n) ≤ t.length := by
        rw [ropeRemove_length pos prev t h1] at h2
        omega
      rw [if_pos h2, if_pos h2b, ropeRemove_ropeRemove pos prev n t h1]
    · have h2b : ¬ pos + (prev + n) ≤ t.length := by
        rw [ropeRemove_length pos prev t h1] at h2
        omega
      rw [if_neg h2, if_neg h2b]
  · rw [if_neg h1, if_neg (by omega)]

/-- Merging two adjacent inserts is apply-equivalent to keeping them,
when the first content is single-byte-per-char. -/
theorem merge_ins_equiv (c s : Str) (hc : asciiStr c) (pos : Nat) (t : Str) :
    applyChanges [Change.insert (c ++ s)] pos t =
      applyChanges [Change.insert c, Change.insert s] pos t := by
  simp only [applyChanges]
  have hbc : byteLen c = c.length := byteLen_eq_length hc
  by_cases h1 : pos ≤ t.length
  · have h2 : pos + byteLen c ≤ (ropeInsert pos c t).length := by
      rw [ropeInsert_length pos c t h1, hbc]
      omega
    rw [if_pos h1, if_pos h1, if_pos h2, byteLen_append, hbc,
      ropeInsert_ropeInsert pos c s t h1, Nat.add_assoc]
  · rw [if_neg h1, if_neg h1]

/-- Pushing a merged `MoveForward` is apply-equivalent to appending it. -/
theorem pushMove_equiv (ch : List Change) (n : Nat) :
    ApplyEquiv (pushMove ch n) (ch ++ [Change.moveForward n]) := by
  unfold pushMove
  cases hlast : ch.getLast? with
  | none => exact ApplyEquiv.rfl _
  | some c =>
      cases c with
      | moveForward prev =>
          have hd := getLast?_decomp hlast
          show ApplyEquiv (ch.dropLast ++ [Change.moveForward (prev + n)])
            (ch ++ [Change.moveForward n])
          intro pos t
          conv_rhs => rw [hd]
          rw [List.append_assoc, applyChanges_append, applyChanges_append]
          cases applyChanges ch.dropLast pos t with
          | none => rfl
          | some pr => exact merge_moves_equiv prev n pr.1 pr.2
      | insert s2 => exact ApplyEquiv.rfl _
      | delete m => exact ApplyEquiv.rfl _

/-- Pushing a merged `Delete` is apply-equivalent to appending it. -/
theorem pushDel_equiv (ch : List Change) (n : Nat) :
    ApplyEquiv (pushDel ch n) (ch ++ [Change.delete n]) := by
  unfold pushDel
  cases hlast : ch.getLast? with
  | none => exact ApplyEquiv.rfl _
  | some c =>
      cases c with
      | delete prev =>
          have hd := getLast?_decomp hlast
          show ApplyEquiv (ch.dropLast ++ [Change.delete (prev + n)])
            (ch ++ [Change.delete n])
          intro pos t
          conv_rhs => rw [hd]
          rw [List.append_assoc, applyChanges_append, applyChanges_append]
          cases applyChanges ch.dropLast pos t with
          | none => rfl
          | some pr => exact merge_dels_equiv prev n pr.1 pr.2
      | insert s2 => exact ApplyEquiv.rfl _
      | moveForward m => exact ApplyEquiv.rfl _

/-- Pushing a merged `Insert` is apply-equivalent to appending it, when
the already-recorded inserts are single-byte-per-char. -/
theorem pushIns_equiv (ch : List Change) (s : Str) (hch : insertsAscii ch) :
    ApplyEquiv (pushIns ch s) (ch ++ [Change.insert s]) := by
  unfold pushIns
  cases hlast : ch.getLast? with
  | none => exact ApplyEquiv.rfl _
  | some c =>
      cases c with
      | insert content =>
          have hd := getLast?_decomp hlast
          have hmem : Change.insert content ∈ ch := by
            rw [hd]
            simp
          have hc : asciiStr content := hch content hmem
          show ApplyEquiv (ch.dropLast ++ [Change.insert (content ++ s)])
            (ch ++ [Change.insert s])
          intro pos t
          conv_rhs => rw [hd]
          rw [List.append_assoc, applyChanges_append, applyChanges_append]
          cases applyChanges ch.dropLast pos t with
          | none => rfl
          | some pr => exact merge_ins_equiv content s hc pr.1 pr.2
      | moveForward m => exact ApplyEquiv.rfl _
      | delete m => exact ApplyEquiv.rfl _

/-- `insertsAscii` is preserved when appending a change whose inserted
content (if any) is single-byte-per-char. -/
theorem insertsAscii_append_single {ch : List Change} (h : insertsAscii ch)
    {x : Change} (hx : ∀ s, x = Change.insert s → asciiStr s) :
    insertsAscii (ch ++ [x]) := by
  intro s hs
  rcases List.mem_append.mp hs with hs | hs
  · exact h s hs
  · rw [List.mem_singleton] at hs
    exact hx s hs.symm

/-- `insertsAscii` restricts to `dropLast`. -/
theorem insertsAscii_dropLast {ch : List Change} (h : insertsAscii ch) :
    insertsAscii ch.dropLast := by
  intro s hs
  refine h s ?_
  rw [List.dropLast_eq_take] at hs
  exact List.take_subset _ _ hs

/-- `pushMove` preserves `insertsAscii`. -/
theorem insertsAscii_pushMove {ch : List Change} (h : insertsAscii ch) (n : Nat) :
    insertsAscii (pushMove ch n) := by
  unfold pushMove
  cases hlast : ch.getLast? with
  | none => exact insertsAscii_append_single h (fun s hs => by cases hs)
  | some c =>
      cases c with
      | moveForward prev =>
          exact insertsAscii_append_single (insertsAscii_dropLast h)
            (fun s hs => by cases hs)
      | insert s2 => exact insertsAscii_append_single h (fun s hs => by cases hs)
      | delete m => exact insertsAscii_append_single h (fun s hs => by cases hs)

/-- `pushDel` preserves `insertsAscii`. -/
theorem insertsAscii_pushDel {ch : List Change} (h : insertsAscii ch) (n : Nat) :
    insertsAscii (pushDel ch n) := by
  unfold pushDel
  cases hlast : ch.getLast? with
  | none => exact insertsAscii_append_single h (fun s hs => by cases hs)
  | some c =>
      cases c with
      | delete prev =>
          exact insertsAscii_append_single (insertsAscii_dropLast h)
            (fun s hs => by cases hs)
      | insert s2 => exact insertsAscii_append_single h (fun s hs => by cases hs)
      | moveForward m => exact insertsAscii_append_single h (fun s hs => by cases hs)

/-- `pushIns` with single-byte-per-char content preserves `insertsAscii`. -/
theorem insertsAscii_pushIns {ch : List Change} (h : insertsAscii ch) {s : Str}
    (hs : asciiStr s) : insertsAscii (pushIns ch s) := by
  unfold pushIns
  cases hlast : ch.getLast? with
  | none =>
      refine insertsAscii_append_single h (fun s2 hs2 => ?_)
      injection hs2 with h2
      rw [← h2]
      exact hs
  | some c =>
      cases c with
      | insert content =>
          have hd := getLast?_decomp hlast
          have hmem : Change.insert content ∈ ch := by
            rw [hd]
            simp
          refine insertsAscii_append_single (insertsAscii_dropLast h)
            (fun s2 hs2 => ?_)
          injection hs2 with h2
          rw [← h2]
          exact asciiStr_append (h content hmem) hs
      | moveForward m =>
          refine insertsAscii_append_single h (fun s2 hs2 => ?_)
          injection hs2 with h2
          rw [← h2]
          exact hs
      | delete m =>
          refine insertsAscii_append_single h (fun s2 hs2 => ?_)
          injection hs2 with h2
          rw [← h2]
          exact hs

/-- The merging undo builder `undoGo` (the loop of `ChangeSet::undo`)
keeps the revert's `start_pos` and builds a change list apply-equivalent
to the accumulated changes followed by the raw inverse list, read from
the revert's current `end_pos`. -/
theorem undoGo_spec (O : Str) (hO : asciiStr O) (c : List Change) :
    ∀ (rv : ChangeSet), insertsAscii rv.changes →
      (undoGo O c rv).start_pos = rv.start_pos ∧
        ApplyEquiv (undoGo O c rv).changes (rv.changes ++ undoList O c rv.end_pos) := by
  induction c with
  | nil =>
      intro rv hrv
      refine ⟨Eq.refl _, ?_⟩
      show ApplyEquiv rv.changes (rv.changes ++ [])
      rw [List.append_nil]
      exact ApplyEquiv.rfl _
  | cons ch rest ih =>
      intro rv hrv
      cases ch with
      | moveForward n =>
          have hrv2 : insertsAscii (rv.move_forward_by n).changes :=
            insertsAscii_pushMove hrv n
          obtain ⟨hs, he⟩ := ih (rv.move_forward_by n) hrv2
          refine ⟨hs, ?_⟩
          refine ApplyEquiv.trans he ?_
          have h2 := ApplyEquiv.append_right (undoList O rest (rv.end_pos + n))
            (pushMove_equiv rv.changes n)
          rw [List.append_assoc] at h2
          exact h2
      | insert s =>
          by_cases hs0 : s.length = 0
          · have hdel : rv.delete s.length = rv := by
              simp [ChangeSet.delete, hs0]
            obtain ⟨hstart2, he⟩ := ih (rv.delete s.length) (by rw [hdel]; exact hrv)
            rw [hdel] at hstart2 he
            have huL : undoList O (Change.insert s :: rest) rv.end_pos =
                undoList O rest rv.end_pos := by
              simp [undoList, hs0]
            refine ⟨?_, ?_⟩
            · show (undoGo O rest (rv.delete s.length)).start_pos = rv.start_pos
              rw [hdel]
              exact hstart2
            · show ApplyEquiv (undoGo O rest (rv.delete s.length)).changes
                (rv.changes ++ undoList O (Change.insert s :: rest) rv.end_pos)
              rw [hdel, huL]
              exact he
          · have hdel_changes : (rv.delete s.length).changes =
                pushDel rv.changes s.length := by
              simp [ChangeSet.delete, hs0]
            have hdel_end : (rv.delete s.length).end_pos = rv.end_pos := by
              simp [ChangeSet.delete, hs0]
            have hdel_start : (rv.delete s.length).start_pos = rv.start_pos := by
              simp [ChangeSet.delete, hs0]
            have hrv2 : insertsAscii (rv.delete s.length).changes := by
              rw [hdel_changes]
              exact insertsAscii_pushDel hrv _
            obtain ⟨hstart2, he⟩ := ih (rv.delete s.length) hrv2
            refine ⟨?_, ?_⟩
            · show (undoGo O rest (rv.delete s.length)).start_pos = rv.start_pos
              rw [hstart2, hdel_start]
            · show ApplyEquiv (undoGo O rest (rv.delete s.length)).changes
                (rv.changes ++ undoList O (Change.insert s :: rest) rv.end_pos)
              have huL : undoList O (Change.insert s :: rest) rv.end_pos =
                  Change.delete s.length :: undoList O rest rv.end_pos := by
                simp [undoList, hs0]
              rw [huL]
              rw [hdel_changes, hdel_end] at he
              refine ApplyEquiv.trans he ?_
              have h2 := ApplyEquiv.append_right (undoList O rest rv.end_pos)
                (pushDel_equiv rv.changes s.length)
              rw [List.append_assoc] at h2
              exact h2
      | delete len =>
          by_cases hs0 : ((O.drop rv.end_pos).take len).length = 0
          · have hcond : len = 0 ∨ O.length - rv.end_pos = 0 := by
              simp only [List.length_take, List.length_drop] at hs0
              omega
            have hins : (rv.insert ((O.drop rv.end_pos).take len)).1 = rv := by
              simp [ChangeSet.insert, hcond]
            obtain ⟨hstart2, he⟩ :=
              ih (rv.insert ((O.drop rv.end_pos).take len)).1 (by rw [hins]; exact hrv)
            rw [hins] at hstart2 he
            have huL : undoList O (Change.delete len :: rest) rv.end_pos =
                undoList O rest rv.end_pos := by
              simp only [undoList]
              rw [if_pos hs0, hs0, Nat.add_zero]
            refine ⟨?_, ?_⟩
            · show (undoGo O rest (rv.insert ((O.drop rv.end_pos).take len)).1).start_pos
                = rv.start_pos
              rw [hins]
              exact hstart2
            · show ApplyEquiv
                (undoGo O rest (rv.insert ((O.drop rv.end_pos).take len)).1).changes
                (rv.changes ++ undoList O (Change.delete len :: rest) rv.end_pos)
              rw [hins, huL]
              exact he
          · have hsa : asciiStr ((O.drop rv.end_pos).take len) :=
              asciiStr_take (asciiStr_drop hO _) _
            have hcond : ¬(len = 0 ∨ O.length - rv.end_pos = 0) := by
              simp only [List.length_take, List.length_drop] at hs0
              omega
            have hins_changes : (rv.insert ((O.drop rv.end_pos).take len)).1.changes =
                pushIns rv.changes ((O.drop rv.end_pos).take len) := by
              simp [ChangeSet.insert, hcond]
            have hins_end : (rv.insert ((O.drop rv.end_pos).take len)).1.end_pos =
                rv.end_pos + ((O.drop rv.end_pos).take len).length := by
              simp [ChangeSet.insert, hcond, List.length_take, List.length_drop]
            have hins_start : (rv.insert ((O.drop rv.end_pos).take len)).1.start_pos =
                rv.start_pos := by
              simp [ChangeSet.insert, hcond]
            have hrv2 : insertsAscii (rv.insert ((O.drop rv.end_pos).take len)).1.changes := by
              rw [hins_changes]
              exact insertsAscii_pushIns hrv hsa
            obtain ⟨hstart2, he⟩ := ih (rv.insert ((O.drop rv.end_pos).take len)).1 hrv2
            refine ⟨?_, ?_⟩
            · show (undoGo O rest (rv.insert ((O.drop rv.end_pos).take len)).1).start_pos
                = rv.start_pos
              rw [hstart2, hins_start]
            · show ApplyEquiv
                (undoGo O rest (rv.insert ((O.drop rv.end_pos).take len)).1).changes
                (rv.changes ++ undoList O (Change.delete len :: rest) rv.end_pos)
              have huL : undoList O (Change.delete len :: rest) rv.end_pos =
                  Change.insert ((O.drop rv.end_pos).take len) ::
                    undoList O rest (rv.end_pos + ((O.drop rv.end_pos).take len).length) := by
                simp only [undoList]
                rw [if_neg hs0]
              rw [huL]
              rw [hins_changes, hins_end] at he
              refine ApplyEquiv.trans he ?_
              have h2 := ApplyEquiv.append_right
                (undoList O rest (rv.end_pos + ((O.drop rv.end_pos).take len).length))
                (pushIns_equiv rv.changes ((O.drop rv.end_pos).take len) hrv)
              rw [List.append_assoc] at h2
              exact h2

/-- `ChangeSet::undo` keeps the start position and its change list is
apply-equivalent to the raw inverse list read from `start_pos`. -/
theorem ChangeSet.undo_spec (cs : ChangeSet) (O : Str) (hO : asciiStr O) :
    (cs.undo O).start_pos = cs.start_pos ∧
      ApplyEquiv (cs.undo O).changes (undoList O cs.changes cs.start_pos) := by
  obtain ⟨hs, he⟩ := undoGo_spec O hO cs.changes
    { start_pos := cs.start_pos, end_pos := cs.start_pos, changes := [] }
    (fun s hs => absurd hs (List.not_mem_nil _))
  exact ⟨hs, by simpa using he⟩

/-- A singleton changeset list applies as the changeset itself. -/
theorem applyChangesets_single (cs : ChangeSet) (offset : Int) (pos : Nat) (t : Str) :
    applyChangesets [cs] offset pos t = cs.apply offset t := by
  cases h : cs.apply offset t with
  | none => simp [applyChangesets, h]
  | some pr => simp [applyChangesets, h]

/-- `ChangeSet::apply` with offset 0 starts at `start_pos`. -/
theorem ChangeSet.apply_zero (cs : ChangeSet) (t : Str) :
    cs.apply 0 t = applyChanges cs.changes cs.start_pos t := by
  unfold ChangeSet.apply
  norm_num

/-- C1, amended: the undo round-trip holds for a transaction with a
single changeset, the default repeat of 1, single-byte-per-char inserted
strings and a single-byte-per-char original text, anchored within
bounds. -/
theorem C1_roundtrip_amended (tx : Transaction) (cs : ChangeSet) (O T2 : Str)
    (p : Nat) (hrep : tx.repeat_count = 1) (hcs : tx.changesets = [cs])
    (hins : insertsAscii cs.changes) (hO : asciiStr O)
    (hstart : cs.start_pos ≤ O.length) (happly : tx.apply O = some (p, T2)) :
    ∃ q, (tx.undo O).apply T2 = some (q, O) := by
  rw [Transaction.apply_eq_applyPasses tx cs [] O hcs, hrep, hcs] at happly
  rw [show (1 : Nat) = 0 + 1 from rfl, applyPasses_succ, Option.getD_none,
    applyChangesets_single, ChangeSet.apply_zero] at happly
  have h1 : applyChanges cs.changes cs.start_pos O = some (p, T2) := by
    cases hA : applyChanges cs.changes cs.start_pos O with
    | none => rw [hA] at happly; cases happly
    | some pr =>
        rw [hA] at happly
        obtain ⟨pp, tt⟩ := pr
        simp only [applyPasses] at happly
        exact happly
  have hX : (O.take cs.start_pos).length = cs.start_pos := by
    simp only [List.length_take]
    omega
  have h2 : applyChanges cs.changes (O.take cs.start_pos).length
      (O.take cs.start_pos ++ O.drop cs.start_pos) = some (p, T2) := by
    rw [hX, List.take_append_drop]
    exact h1
  obtain ⟨_, q, hq⟩ := undoList_round_trip O hO cs.changes cs.start_pos
    (O.take cs.start_pos) p T2 hins hstart h2
  rw [List.take_append_drop] at hq
  have hundo_cs : (tx.undo O).changesets = [cs.undo O] := by
    rw [Transaction.undo]
    simp [hcs]
  have hrep2 : (tx.undo O).repeat_count = 1 := by
    rw [Transaction.undo]
    exact hrep
  obtain ⟨hstart_undo, hequiv⟩ := ChangeSet.undo_spec cs O hO
  refine ⟨q, ?_⟩
  rw [Transaction.apply_eq_applyPasses (tx.undo O) (cs.undo O) [] T2 hundo_cs,
    hrep2, hundo_cs]
  rw [show (1 : Nat) = 0 + 1 from rfl, applyPasses_succ, Option.getD_none,
    applyChangesets_single, ChangeSet.apply_zero]
  rw [hstart_undo, hequiv cs.start_pos T2]
  rw [hX] at hq
  rw [hq]
  simp [applyPasses]

/-- Witness for C1 at the spec's own scenario: `"hello tx"` with
`move_forward_by 1; delete 3; insert "xxxy"`, producing `"hxxxyo tx"`,
whose undo restores `"hello tx"`. -/
theorem C1_roundtrip_amended_witness :
    ∃ q, (txHello.undo ['h', 'e', 'l', 'l', 'o', ' ', 't', 'x']).apply
        ['h', 'x', 'x', 'x', 'y', 'o', ' ', 't', 'x'] =
      some (q, ['h', 'e', 'l', 'l', 'o', ' ', 't', 'x']) :=
  C1_roundtrip_amended txHello
    ⟨0, 5, [Change.moveForward 1, Change.delete 3,
            Change.insert ['x', 'x', 'x', 'y']]⟩
    ['h', 'e', 'l', 'l', 'o', ' ', 't', 'x']
    ['h', 'x', 'x', 'x', 'y', 'o', ' ', 't', 'x'] 5 rfl rfl
    (by
      intro s hs
      simp only [List.mem_cons, List.not_mem_nil, or_false] at hs
      rcases hs with hs | hs | hs <;> cases hs <;> decide)
    (by decide) (by decide) (by decide)

/-! ## Claim C5: the newline-avoidance invariant.
Structure of lines in the rope model. -/

/-- A line break inside a line can only be its last character. -/
theorem takeLine_nl (u : Str) :
    ∀ (j : Nat), (takeLine u).get? j = some '\n' → j + 1 = (takeLine u).length := by
  induction u with
  | nil => intro j h; simp [takeLine] at h
  | cons c rest ih =>
      intro j h
      by_cases hc : c = '\n'
      · subst hc
        simp only [takeLine, if_pos rfl] at h ⊢
        match j, h with
        | 0, _ => rfl
        | j + 1, h => simp at h
      · simp only [takeLine, if_neg hc] at h ⊢
        match j, h with
        | 0, h =>
            rw [List.get?_cons_zero, Option.some_inj] at h
            exact absurd h hc
        | j + 1, h =>
            rw [List.get?_cons_succ] at h
            rw [List.length_cons]
            exact congrArg Nat.succ (ih j h)

/-- `takeLine` is an initial segment. -/
theorem takeLine_append (u : Str) : ∃ r, u = takeLine u ++ r := by
  induction u with
  | nil => exact ⟨[], rfl⟩
  | cons c rest ih =>
      by_cases hc : c = '\n'
      · subst hc
        exact ⟨rest, by simp [takeLine]⟩
      · obtain ⟨r, hr⟩ := ih
        refine ⟨r, ?_⟩
        simp only [takeLine, if_neg hc, List.cons_append]
        exact congrArg (c :: ·) hr

/-- A break-free text is a single full line. -/
theorem takeLine_of_nl_free (u : Str) (h : countNl u = 0) : takeLine u = u := by
  induction u with
  | nil => rfl
  | cons c rest ih =>
      simp only [countNl] at h
      by_cases hc : c = '\n'
      · rw [if_pos hc] at h
        omega
      · rw [if_neg hc] at h
        simp only [takeLine, if_neg hc]
        rw [ih (by omega)]

/-- A break-free text contains no `'\n'`. -/
theorem not_mem_of_countNl_zero (u : Str) : countNl u = 0 → '\n' ∉ u := by
  induction u with
  | nil => intro _ hm; simp at hm
  | cons c rest ih =>
      intro h hm
      simp only [countNl] at h
      rcases List.mem_cons.mp hm with hm | hm
      · rw [if_pos hm.symm] at h
        omega
      · by_cases hc : c = '\n'
        · rw [if_pos hc] at h
          omega
        · rw [if_neg hc] at h
          exact ih (by omega) hm

/-- A break-free text holds no `'\n'` at any index. -/
theorem nl_free_no_nl (u : Str) (h : countNl u = 0) (j : Nat) :
    u.get? j ≠ some '\n' :=
  fun hj => not_mem_of_countNl_zero u h (List.get?_mem hj)

/-- Line starts are within the text. -/
theorem line_to_char_le (t : Str) : ∀ (l : Nat), line_to_char t l ≤ t.length := by
  induction t with
  | nil => intro l; cases l <;> simp [line_to_char]
  | cons c rest ih =>
      intro l
      cases l with
      | zero => simp [line_to_char]
      | succ l =>
          simp only [line_to_char, List.length_cons]
          split
          · have := ih l; omega
          · have := ih (l + 1); omega

/-- The count of line breaks in a prefix never exceeds the total. -/
theorem char_to_line_le (t : Str) : ∀ (i : Nat), char_to_line t i ≤ countNl t := by
  induction t with
  | nil => intro i; simp [char_to_line, countNl]
  | cons c rest ih =>
      intro i
      cases i with
      | zero => simp [char_to_line, countNl, List.take_zero]
      | succ i =>
          simp only [char_to_line, countNl, List.take_succ_cons] at *
          have := ih i
          split <;> omega

/-- The line of the one-past-the-end position is the last line. -/
theorem char_to_line_length (t : Str) : char_to_line t t.length = countNl t := by
  unfold char_to_line
  rw [List.take_length]

/-- The start of a line is on that line. -/
theorem char_to_line_line_to_char (t : Str) :
    ∀ (l : Nat), l ≤ countNl t → char_to_line t (line_to_char t l) = l := by
  induction t with
  | nil =>
      intro l hl
      simp only [countNl, Nat.le_zero] at hl
      subst hl
      rfl
  | cons c rest ih =>
      intro l hl
      cases l with
      | zero => rfl
      | succ l =>
          simp only [countNl] at hl
          by_cases hc : c = '\n'
          · rw [if_pos hc] at hl
            simp only [line_to_char, if_pos hc, char_to_line, List.take_succ_cons]
            simp only [countNl, if_pos hc]
            have := ih l (by omega)
            unfold char_to_line at this
            omega
          · rw [if_neg hc] at hl
            simp only [line_to_char, if_neg hc, char_to_line, List.take_succ_cons]
            simp only [countNl, if_neg hc]
            have := ih (l + 1) (by omega)
            unfold char_to_line at this
            omega

/-- Line 0 starts at character 0. -/
theorem line_to_char_zero (t : Str) : line_to_char t 0 = 0 := by
  cases t <;> rfl

/-- Reading inside a line reads the underlying text. -/
theorem get_line (t : Str) (l j : Nat) (hj : j < (lineAt t l).length) :
    t.get? (line_to_char t l + j) = (lineAt t l).get? j := by
  obtain ⟨r, hr⟩ := takeLine_append (t.drop (line_to_char t l))
  rw [← List.get?_drop]
  conv_lhs => rw [hr]
  exact List.get?_append hj

/-- The text after the start of the last line holds no line break. -/
theorem last_line_nl_free (t : Str) :
    countNl (t.drop (line_to_char t (countNl t))) = 0 := by
  induction t with
  | nil => rfl
  | cons c rest ih =>
      by_cases hc : c = '\n'
      · simp only [countNl, if_pos hc]
        rw [Nat.add_comm 1 (countNl rest)]
        simp only [line_to_char, if_pos hc]
        rw [List.drop_succ_cons]
        exact ih
      · simp only [countNl, if_neg hc, Nat.zero_add]
        cases hn : countNl rest with
        | zero =>
            simp only [line_to_char, List.drop_zero, countNl, if_neg hc,
              Nat.zero_add]
            exact hn
        | succ m =>
            simp only [line_to_char, if_neg hc]
            rw [List.drop_succ_cons]
            rw [hn] at ih
            exact ih

/-- The character right before the start of line `l + 1` is the `'\n'`
that ends line `l`. -/
theorem line_terminator (t : Str) :
    ∀ (l : Nat), l < countNl t →
      1 ≤ line_to_char t (l + 1) ∧
        t.get? (line_to_char t (l + 1) - 1) = some '\n' ∧
        char_to_line t (line_to_char t (l + 1) - 1) = l := by
  induction t with
  | nil => intro l hl; simp [countNl] at hl
  | cons c rest ih =>
      intro l hl
      by_cases hc : c = '\n'
      · cases l with
        | zero =>
            simp only [line_to_char, if_pos hc]
            refine ⟨by omega, ?_, ?_⟩
            · show (c :: rest).get? (0 + 1 - 1) = some '\n'
              simp [hc]
            · show char_to_line (c :: rest) (0 + 1 - 1) = 0
              rfl
        | succ l =>
            simp only [countNl, if_pos hc] at hl
            obtain ⟨h1, h2, h3⟩ := ih l (by omega)
            simp only [line_to_char, if_pos hc]
            refine ⟨by omega, ?_, ?_⟩
            · have hm : line_to_char rest (l + 1) + 1 - 1 =
                  (line_to_char rest (l + 1) - 1) + 1 := by omega
              rw [hm, List.get?_cons_succ]
              exact h2
            · have hm : line_to_char rest (l + 1) + 1 - 1 =
                  (line_to_char rest (l + 1) - 1) + 1 := by omega
              rw [hm]
              show countNl ((c :: rest).take ((line_to_char rest (l + 1) - 1) + 1))
                = l + 1
              rw [List.take_succ_cons]
              show countNl (c :: rest.take (line_to_char rest (l + 1) - 1)) = l + 1
              simp only [countNl, if_pos hc]
              unfold char_to_line at h3
              omega
      · simp only [countNl, if_neg hc, Nat.zero_add] at hl
        obtain ⟨h1, h2, h3⟩ := ih l hl
        simp only [line_to_char, if_neg hc]
        refine ⟨by omega, ?_, ?_⟩
        · have hm : line_to_char rest (l + 1) + 1 - 1 =
              (line_to_char rest (l + 1) - 1) + 1 := by omega
          rw [hm, List.get?_cons_succ]
          exact h2
        · have hm : line_to_char rest (l + 1) + 1 - 1 =
              (line_to_char rest (l + 1) - 1) + 1 := by omega
          rw [hm]
          show countNl ((c :: rest).take ((line_to_char rest (l + 1) - 1) + 1)) = l
          rw [List.take_succ_cons]
          show countNl (c :: rest.take (line_to_char rest (l + 1) - 1)) = l
          simp only [countNl, if_neg hc]
          unfold char_to_line at h3
          omega

/-- An in-bounds position sits inside its line (or is the one-past-end
position). -/
theorem pos_in_line (t : Str) :
    ∀ (i : Nat), i ≤ t.length →
      line_to_char t (char_to_line t i) ≤ i ∧
        (i - line_to_char t (char_to_line t i) <
            (lineAt t (char_to_line t i)).length ∨ i = t.length) := by
  induction t with
  | nil =>
      intro i hi
      simp only [List.length_nil, Nat.le_zero] at hi
      subst hi
      exact ⟨Nat.le_refl 0, Or.inr rfl⟩
  | cons c rest ih =>
      intro i hi
      cases i with
      | zero =>
          refine ⟨Nat.le_refl 0, Or.inl ?_⟩
          show 0 - 0 < (takeLine ((c :: rest).drop 0)).length
          simp only [List.drop_zero, takeLine]
          split
          · simp
          · simp
      | succ i =>
          have hi2 : i ≤ rest.length := by simpa using hi
          obtain ⟨ha, hb⟩ := ih i hi2
          by_cases hc : c = '\n'
          · have hctl : char_to_line (c :: rest) (i + 1) = char_to_line rest i + 1 := by
              unfold char_to_line
              rw [List.take_succ_cons]
              simp [countNl, hc, Nat.add_comm]
            have hltc : line_to_char (c :: rest) (char_to_line rest i + 1) =
                line_to_char rest (char_to_line rest i) + 1 := by
              simp [line_to_char, hc]
            have hline : lineAt (c :: rest) (char_to_line rest i + 1) =
                lineAt rest (char_to_line rest i) := by
              unfold lineAt
              rw [hltc, List.drop_succ_cons]
            rw [hctl, hltc, hline]
            refine ⟨by omega, ?_⟩
            rcases hb with hb | hb
            · left
              have heq : i + 1 - (line_to_char rest (char_to_line rest i) + 1) =
                  i - line_to_char rest (char_to_line rest i) := by omega
              rw [heq]
              exact hb
            · right
              simp [hb]
          · have hctl : char_to_line (c :: rest) (i + 1) = char_to_line rest i := by
              unfold char_to_line
              rw [List.take_succ_cons]
              simp [countNl, hc]
            rw [hctl]
            cases hl : char_to_line rest i with
            | zero =>
                rw [hl] at ha hb
                refine ⟨Nat.zero_le _, ?_⟩
                rcases hb with hb | hb
                · left
                  rw [line_to_char_zero] at hb ⊢
                  unfold lineAt at hb ⊢
                  rw [line_to_char_zero, List.drop_zero] at hb ⊢
                  simp only [takeLine, if_neg hc, List.length_cons]
                  omega
                · right
                  simp [hb]
            | succ m =>
                rw [hl] at ha hb
                have hltc : line_to_char (c :: rest) (m + 1) =
                    line_to_char rest (m + 1) + 1 := by
                  simp [line_to_char, hc]
                have hline : lineAt (c :: rest) (m + 1) = lineAt rest (m + 1) := by
                  unfold lineAt
                  rw [hltc, List.drop_succ_cons]
                rw [hltc, hline]
                refine ⟨by omega, ?_⟩
                rcases hb with hb | hb
                · left
                  have heq : i + 1 - (line_to_char rest (m + 1) + 1) =
                      i - line_to_char rest (m + 1) := by omega
                  rw [heq]
                  exact hb
                · right
                  simp [hb]

/-- A length-one list is the singleton of its head. -/
theorem eq_singleton_of_length_one {α : Type} {L : List α} {a : α}
    (h1 : L.length = 1) (h2 : L.get? 0 = some a) : L = [a] := by
  cases L with
  | nil => simp at h2
  | cons x rest =>
      cases rest with
      | nil =>
          rw [List.get?_cons_zero, Option.some_inj] at h2
          rw [h2]
      | cons y r2 => simp at h1

/-- The newline-avoidance clamp: if `E` lies on line `l` (in bounds) and
`F` is `E` clamped as `update_text_position` does with
`allow_on_newline = false`, then `F` does not sit on a `'\n'` unless its
line is exactly `"\n"`. -/
theorem clamp_avoids_newline (t : Str) (E l F : Nat) (hE : E ≤ t.length)
    (hl : char_to_line t E = l)
    (hF : F = if 1 < (lineAt t l).length ∧
        (get_char t E = none ∨ get_char t E = some '\n') then E - 1 else E) :
    get_char t F ≠ some '\n' ∨ lineAt t (char_to_line t F) = ['\n'] := by
  obtain ⟨ha, hb⟩ := pos_in_line t E hE
  rw [hl] at ha hb
  by_cases hcond : 1 < (lineAt t l).length ∧
      (get_char t E = none ∨ get_char t E = some '\n')
  · rw [if_pos hcond] at hF
    obtain ⟨h1L, hor⟩ := hcond
    rcases hor with hnone | hnl
    · have hEt : E = t.length := by
        unfold get_char at hnone
        have := List.get?_eq_none.mp hnone
        omega
      have hlast : l = countNl t := by
        rw [← hl, hEt, char_to_line_length]
      subst hlast
      have hfree : countNl (t.drop (line_to_char t (countNl t))) = 0 :=
        last_line_nl_free t
      have hLeq : lineAt t (countNl t) = t.drop (line_to_char t (countNl t)) := by
        unfold lineAt
        exact takeLine_of_nl_free _ hfree
      have hLlen : (lineAt t (countNl t)).length =
          t.length - line_to_char t (countNl t) := by
        rw [hLeq, List.length_drop]
      have hs_le : line_to_char t (countNl t) + 1 < t.length := by
        omega
      left
      unfold get_char
      have hgd : t.get? F =
          (t.drop (line_to_char t (countNl t))).get?
            (F - line_to_char t (countNl t)) := by
        rw [List.get?_drop]
        congr 1
        omega
      rw [hgd]
      exact nl_free_no_nl _ hfree _
    · have hEt : E < t.length := by
        unfold get_char at hnl
        rcases List.get?_eq_some.mp hnl with ⟨h, _⟩
        exact h
      have hin : E - line_to_char t l < (lineAt t l).length := by
        rcases hb with hb | hb
        · exact hb
        · omega
      have hgl := get_line t l (E - line_to_char t l) hin
      rw [(by omega : line_to_char t l + (E - line_to_char t l) = E)] at hgl
      unfold get_char at hnl
      rw [hnl] at hgl
      have hj := takeLine_nl (t.drop (line_to_char t l)) (E - line_to_char t l)
        hgl.symm
      have hLdef : (lineAt t l).length =
          (takeLine (t.drop (line_to_char t l))).length := Eq.refl _
      have hjge : 1 ≤ E - line_to_char t l := by omega
      left
      have hin2 : E - 1 - line_to_char t l < (lineAt t l).length := by omega
      have hgl2 := get_line t l (E - 1 - line_to_char t l) hin2
      rw [(by omega : line_to_char t l + (E - 1 - line_to_char t l) = E - 1)] at hgl2
      rw [hF]
      unfold get_char
      rw [hgl2]
      intro hbad
      have hj2 := takeLine_nl (t.drop (line_to_char t l)) (E - 1 - line_to_char t l)
        hbad
      omega
  · rw [if_neg hcond] at hF
    rw [hF]
    by_cases hnl : get_char t E = some '\n'
    · right
      have h1L : ¬ 1 < (lineAt t l).length := by
        intro hx
        exact hcond ⟨hx, Or.inr hnl⟩
      have hEt : E < t.length := by
        unfold get_char at hnl
        rcases List.get?_eq_some.mp hnl with ⟨h, _⟩
        exact h
      have hin : E - line_to_char t l < (lineAt t l).length := by
        rcases hb with hb | hb
        · exact hb
        · omega
      have hgl := get_line t l (E - line_to_char t l) hin
      rw [(by omega : line_to_char t l + (E - line_to_char t l) = E)] at hgl
      unfold get_char at hnl
      rw [hnl] at hgl
      have hj := takeLine_nl (t.drop (line_to_char t l)) (E - line_to_char t l)
        hgl.symm
      have hLdef : (lineAt t l).length =
          (takeLine (t.drop (line_to_char t l))).length := Eq.refl _
      have hL1 : (lineAt t l).length = 1 := by omega
      have hj0 : E - line_to_char t l = 0 := by omega
      rw [hl]
      apply eq_singleton_of_length_one hL1
      rw [hj0] at hgl
      exact hgl.symm
    · left
      exact hnl

/-- Branch analysis of `Buffer.resolve_target`: in every branch the
pre-clamp position `E` lies in bounds and on the reported line `l`, and
the result is the clamp of `E` against line `l`.  The `line_keep`
branches need the buffer's line bookkeeping (`line_idx` in range,
`line_char` the start of that line) to be consistent with the text. -/
theorem resolve_target_spec (b : Buffer) (text : Str) (pos : Nat)
    (params : UpdateBufPositionParams) (hpos : pos ≤ text.length)
    (hkeep : params.line_keep = true →
      b.line_idx < len_lines text ∧ b.line_char = line_to_char text b.line_idx) :
    ∃ E l, E ≤ text.length ∧ char_to_line text E = l ∧
      b.resolve_target text pos params =
        (if params.allow_on_newline = false ∧ 1 < (lineAt text l).length ∧
            (get_char text E = none ∨ get_char text E = some '\n')
          then E - 1 else E, l) := by
  by_cases hlk : params.line_keep = true
  · obtain ⟨hlt, hlc⟩ := hkeep hlk
    have hcnt : b.line_idx ≤ countNl text := by
      unfold len_lines at hlt
      omega
    by_cases hA : char_to_line text pos < b.line_idx
    · refine ⟨b.line_char, b.line_idx, ?_, ?_, ?_⟩
      · rw [hlc]
        exact line_to_char_le text b.line_idx
      · rw [hlc]
        exact char_to_line_line_to_char text b.line_idx hcnt
      · unfold Buffer.resolve_target
        dsimp only
        rw [if_pos hlk, if_pos hA]
    · by_cases hB : b.line_idx < char_to_line text pos
      · have hmid : b.line_idx < countNl text := by
          have := char_to_line_le text pos
          omega
        have hll : len_lines text - 1 = countNl text := by
          unfold len_lines
          omega
        have hmin : min (b.line_idx + 1) (len_lines text - 1) = b.line_idx + 1 := by
          rw [hll]
          exact Nat.min_eq_left (by omega)
        obtain ⟨hge1, hnlE, hlE⟩ := line_terminator text b.line_idx hmid
        refine ⟨line_to_char text (b.line_idx + 1) - 1, b.line_idx, ?_, hlE, ?_⟩
        · have := line_to_char_le text (b.line_idx + 1)
          omega
        · unfold Buffer.resolve_target
          dsimp only
          rw [if_pos hlk, if_neg hA, if_pos hB]
          dsimp only
          rw [hmin]
      · have heq : char_to_line text pos = b.line_idx := by omega
        refine ⟨pos, b.line_idx, hpos, heq, ?_⟩
        unfold Buffer.resolve_target
        dsimp only
        rw [if_pos hlk, if_neg hA, if_neg hB]
  · refine ⟨pos, char_to_line text pos, hpos, rfl, ?_⟩
    unfold Buffer.resolve_target
    dsimp only
    rw [if_neg hlk]

/-- C5: for every text and every in-bounds target position, a buffer
whose line bookkeeping (if `line_keep` is requested) is consistent with
the text never has `text_pos` pointing at a `'\n'` character after
`update_text_position` with `allow_on_newline = false`, unless the line
containing `text_pos` consists solely of that newline. -/
theorem C5_newline_avoidance (b : Buffer) (text : Str) (pos : Nat)
    (params : UpdateBufPositionParams)
    (hallow : params.allow_on_newline = false)
    (hpos : pos ≤ text.length)
    (hkeep : params.line_keep = true →
      b.line_idx < len_lines text ∧ b.line_char = line_to_char text b.line_idx) :
    get_char text ((b.update_text_position text pos params).1.text_pos) ≠ some '\n' ∨
      lineAt text (char_to_line text
        ((b.update_text_position text pos params).1.text_pos)) = ['\n'] := by
  have hchar := (update_text_position_characterisation b text pos params (by omega)).1
  rw [hchar]
  obtain ⟨E, l, hE, hl, heq⟩ := resolve_target_spec b text pos params hpos hkeep
  have hres : b.resolved_pos text pos params =
      (if 1 < (lineAt text l).length ∧
          (get_char text E = none ∨ get_char text E = some '\n')
        then E - 1 else E) := by
    unfold Buffer.resolved_pos
    rw [heq]
    dsimp only
    simp only [hallow, eq_self_iff_true, true_and]
  rw [hres]
  exact clamp_avoids_newline text E l _ hE hl rfl

/-- Witness for C5 at a concrete input: on `"kaka\n"` with default
parameters, the request for position 4 (the trailing newline of a
five-character line) is clamped so that the resulting `text_pos` does
not sit on the newline. -/
theorem C5_newline_avoidance_witness :
    get_char ['k', 'a', 'k', 'a', '\n']
        ((buf0.update_text_position ['k', 'a', 'k', 'a', '\n'] 4
          UpdateBufPositionParams.default).1.text_pos) ≠ some '\n' ∨
      lineAt ['k', 'a', 'k', 'a', '\n']
        (char_to_line ['k', 'a', 'k', 'a', '\n']
          ((buf0.update_text_position ['k', 'a', 'k', 'a', '\n'] 4
            UpdateBufPositionParams.default).1.text_pos)) = ['\n'] :=
  C5_newline_avoidance buf0 ['k', 'a', 'k', 'a', '\n'] 4
    UpdateBufPositionParams.default (by decide) (by decide) (by decide)

end Kaka
